import Mathlib

/-!
Verification of the split-calculation core of the DendroPy repository
(file dendropy/splits.py) against its natural-language specification.

The Python source is shallowly embedded: Python arbitrary-precision
integers become Nat (or Rat where float/negative inputs matter),
Python dicts become association lists with dict-style update semantics,
Python exceptions become Except values, and the mutable SplitDistribution
object becomes a state record transformed by pure functions.

Collaborator code of the repository that is not part of the provided
source slice (the taxa block, tree methods such as normalize_taxa, and
utils.NormalizedBitmaskDict) is modelled from the specification; each
such definition carries a doc comment starting with the words Modelled
from the spec.
-/

namespace DendroPy

/-! ## Association-list dictionaries (model of Python dict) -/

/-- Lookup in an association list: first binding of the key wins. -/
def plookup {κ α : Type} [DecidableEq κ] (k : κ) : List (κ × α) → Option α
  | [] => none
  | (k', v) :: t => if k' = k then some v else plookup k t

/-- Python dict assignment: replace the binding in place if the key is
present, otherwise append the new binding at the end. -/
def pset {κ α : Type} [DecidableEq κ] (k : κ) (v : α) : List (κ × α) → List (κ × α)
  | [] => [(k, v)]
  | (k', v') :: t => if k' = k then (k, v) :: t else (k', v') :: pset k v t

theorem plookup_pset_self {κ α : Type} [DecidableEq κ] (k : κ) (v : α) (l : List (κ × α)) :
    plookup k (pset k v l) = some v := by
  induction l with
  | nil => simp [pset, plookup]
  | cons p t ih =>
    obtain ⟨k', v'⟩ := p
    by_cases h : k' = k
    · simp [pset, h, plookup]
    · simp [pset, h, plookup, ih]

theorem plookup_pset_ne {κ α : Type} [DecidableEq κ] {k k' : κ} (v : α) (l : List (κ × α))
    (h : k' ≠ k) : plookup k' (pset k v l) = plookup k' l := by
  have hkk : k ≠ k' := fun h' => h h'.symm
  induction l with
  | nil => simp [pset, plookup, hkk]
  | cons p t ih =>
    obtain ⟨k0, v0⟩ := p
    by_cases h0 : k0 = k
    · subst h0
      simp [pset, plookup, hkk]
    · by_cases h1 : k0 = k'
      · simp [pset, h0, plookup, h1, h]
      · simp [pset, h0, plookup, h1, ih]

theorem plookup_append {κ α : Type} [DecidableEq κ] (k : κ) (l l' : List (κ × α)) :
    plookup k (l ++ l') =
      match plookup k l with
      | some v => some v
      | none => plookup k l' := by
  induction l with
  | nil => simp [plookup]
  | cons p t ih =>
    obtain ⟨k', v⟩ := p
    by_cases h : k' = k <;> simp [plookup, h, ih]

/-- Keys of an association list. -/
def pkeys {κ α : Type} (l : List (κ × α)) : List κ := l.map Prod.fst

@[simp] theorem pkeys_nil {κ α : Type} [DecidableEq κ] : pkeys ([] : List (κ × α)) = [] := rfl

@[simp] theorem pkeys_cons {κ α : Type} [DecidableEq κ] (p : κ × α) (t : List (κ × α)) :
    pkeys (p :: t) = p.1 :: pkeys t := rfl

theorem mem_pkeys_of_mem {κ α : Type} [DecidableEq κ] {k : κ} {v : α} {l : List (κ × α)}
    (h : (k, v) ∈ l) : k ∈ pkeys l :=
  List.mem_map_of_mem Prod.fst h

theorem pkeys_pset_mem {κ α : Type} [DecidableEq κ] {k : κ} (v : α) {l : List (κ × α)}
    (h : k ∈ pkeys l) : pkeys (pset k v l) = pkeys l := by
  induction l with
  | nil => simp at h
  | cons p t ih =>
    obtain ⟨k0, v0⟩ := p
    by_cases h0 : k0 = k
    · simp [pset, h0]
    · have ht : k ∈ pkeys t := by
        rcases List.mem_cons.mp (by simpa using h) with h1 | h1
        · exact absurd h1.symm h0
        · exact h1
      simp only [pset, if_neg h0, pkeys_cons]
      rw [ih ht]

theorem pkeys_pset_not_mem {κ α : Type} [DecidableEq κ] {k : κ} (v : α) {l : List (κ × α)}
    (h : ¬ k ∈ pkeys l) : pkeys (pset k v l) = pkeys l ++ [k] := by
  induction l with
  | nil => simp [pset]
  | cons p t ih =>
    obtain ⟨k0, v0⟩ := p
    by_cases h0 : k0 = k
    · exact absurd (by simp [h0]) h
    · have ht : ¬ k ∈ pkeys t := fun hm => h (by simp; right; exact hm)
      simp only [pset, if_neg h0, pkeys_cons]
      rw [ih ht]
      simp

theorem plookup_isSome_iff_mem {κ α : Type} [DecidableEq κ] (k : κ) (l : List (κ × α)) :
    (plookup k l).isSome = true ↔ k ∈ pkeys l := by
  induction l with
  | nil => simp [plookup]
  | cons p t ih =>
    obtain ⟨k', v⟩ := p
    by_cases h : k' = k
    · simp [plookup, h]
    · have hne : k ≠ k' := fun h' => h h'.symm
      simp [plookup, h, ih, hne]

theorem pkeys_nodup_pset {κ α : Type} [DecidableEq κ] (k : κ) (v : α) (l : List (κ × α))
    (h : (pkeys l).Nodup) : (pkeys (pset k v l)).Nodup := by
  by_cases hk : k ∈ pkeys l
  · rw [pkeys_pset_mem v hk]; exact h
  · rw [pkeys_pset_not_mem v hk]
    simpa [List.nodup_append] using ⟨h, hk⟩

theorem plookup_eq_of_mem_nodup {κ α : Type} [DecidableEq κ] {k : κ} {v : α} {l : List (κ × α)}
    (hn : (pkeys l).Nodup) (hm : (k, v) ∈ l) : plookup k l = some v := by
  induction l with
  | nil => simp at hm
  | cons p t ih =>
    obtain ⟨k', v'⟩ := p
    rw [pkeys_cons, List.nodup_cons] at hn
    rcases List.mem_cons.mp hm with h | h
    · cases h
      simp [plookup]
    · have hk : k' ≠ k := by
        intro he
        exact hn.1 (he ▸ mem_pkeys_of_mem h)
      simp only [plookup, if_neg hk]
      exact ih hn.2 h

/-! ## popcount: the specification-side bit count

The number of one bits in the binary representation of a natural
number, written as the obvious recursion over binary digits. -/

/-- Fuel-bounded helper so that popcount reduces definitionally; the
fuel never runs out when it starts at the number itself. -/
def popcountAux : Nat → Nat → Nat
  | _, 0 => 0
  | 0, _ + 1 => 0
  | fuel + 1, n + 1 => (n + 1) % 2 + popcountAux fuel ((n + 1) / 2)

def popcount (n : Nat) : Nat := popcountAux n n

theorem popcountAux_congr : ∀ f1 f2 n, n ≤ f1 → n ≤ f2 →
    popcountAux f1 n = popcountAux f2 n := by
  intro f1
  induction f1 with
  | zero =>
    intro f2 n h1 _
    have : n = 0 := Nat.le_zero.mp h1
    subst this
    cases f2 <;> rfl
  | succ g1 ih =>
    intro f2 n h1 h2
    match n, f2 with
    | 0, f2 => cases f2 <;> rfl
    | m + 1, g2 + 1 =>
      show (m + 1) % 2 + popcountAux g1 ((m + 1) / 2) =
        (m + 1) % 2 + popcountAux g2 ((m + 1) / 2)
      rw [ih g2 ((m + 1) / 2) (by omega) (by omega)]

theorem popcount_step (n : Nat) : popcount n = n % 2 + popcount (n / 2) := by
  match n with
  | 0 => rfl
  | m + 1 =>
    show (m + 1) % 2 + popcountAux m ((m + 1) / 2) = _
    rw [popcountAux_congr m ((m + 1) / 2) ((m + 1) / 2) (by omega) le_rfl]
    rfl

theorem popcount_zero : popcount 0 = 0 := rfl

theorem popcount_double (m : Nat) : popcount (2 * m) = popcount m := by
  rw [popcount_step]
  simp [Nat.mul_div_cancel_left, Nat.mul_mod_right]

theorem popcount_double_add_one (m : Nat) : popcount (2 * m + 1) = popcount m + 1 := by
  rw [popcount_step]
  have h2 : (2 * m + 1) / 2 = m := by omega
  have h1 : (2 * m + 1) % 2 = 1 := by omega
  rw [h1, h2]; omega

theorem popcount_eq_zero {m : Nat} : popcount m = 0 ↔ m = 0 := by
  constructor
  · intro h
    by_contra hm
    induction m using Nat.strong_induction_on with
    | _ m ih =>
      rw [popcount_step] at h
      rcases Nat.eq_zero_or_pos (m % 2) with h2 | h2
      · have hd : m / 2 ≠ 0 := by omega
        exact ih (m / 2) (by omega) (by omega) hd
      · omega
  · intro h; subst h; exact popcount_zero

/-- Base-2^k digit decomposition of popcount. -/
theorem popcount_mod_div (k : Nat) : ∀ c : Nat,
    popcount c = popcount (c % 2 ^ k) + popcount (c / 2 ^ k) := by
  induction k with
  | zero => intro c; simp [popcount_zero, Nat.mod_one]
  | succ k ih =>
    intro c
    have hm2 : c % 2 ^ (k + 1) % 2 = c % 2 := by
      have : (2 : Nat) ∣ 2 ^ (k + 1) := dvd_pow_self 2 (Nat.succ_ne_zero k)
      exact Nat.mod_mod_of_dvd c this
    have hd2 : c % 2 ^ (k + 1) / 2 = c / 2 % 2 ^ k := by
      have h : (2 : Nat) ^ (k + 1) = 2 * 2 ^ k := by ring
      rw [h, Nat.mod_mul_right_div_self]
    have hd : c / 2 ^ (k + 1) = c / 2 / 2 ^ k := by
      rw [Nat.div_div_eq_div_mul]; ring_nf
    calc popcount c = c % 2 + popcount (c / 2) := popcount_step c
    _ = c % 2 + (popcount (c / 2 % 2 ^ k) + popcount (c / 2 / 2 ^ k)) := by rw [ih (c / 2)]
    _ = (c % 2 + popcount (c / 2 % 2 ^ k)) + popcount (c / 2 / 2 ^ k) := by omega
    _ = popcount (c % 2 ^ (k + 1)) + popcount (c / 2 ^ (k + 1)) := by
        rw [popcount_step (c % 2 ^ (k + 1)), hm2, hd2, hd]

/-! ## count_bits (dendropy.splits.count_bits)

Source, dendropy/splits.py lines 34-50.  The Python function first
coerces its argument with long(), raising for a non-integer value,
then rejects negative values, then counts bits four at a time with a
sixteen-entry lookup table.  Python numbers are embedded as rationals;
long() truncates toward zero. -/

/-- The module-level table __n_bits_set of splits.py. -/
def n_bits_set : List Nat := [0, 1, 1, 2, 1, 2, 2, 3, 1, 2, 2, 3, 2, 3, 3, 4]

/-- The while loop of count_bits: add the table entry for the low
nibble, then shift right by four. -/
def countBitsLoop (c : Nat) : Nat :=
  if c = 0 then 0 else n_bits_set.getD (c &&& 0x0F) 0 + countBitsLoop (c >>> 4)
decreasing_by
  rename_i h
  rw [Nat.shiftRight_eq_div_pow]
  exact Nat.div_lt_self (Nat.pos_of_ne_zero h) (by norm_num)

/-- Python int() / long() truncation toward zero of a rational. -/
def pyTrunc (q : ℚ) : ℤ := if 0 ≤ q then ⌊q⌋ else ⌈q⌉

/-- dendropy.splits.count_bits, with the argument a Python number
modelled as a rational. -/
def count_bits (a : ℚ) : Except String Nat :=
  let c : ℤ := pyTrunc a
  if (c : ℚ) ≠ a then .error "non-integer argument"
  else if c < 1 then
    (if c < 0 then .error "negative argument" else .ok 0)
  else .ok (countBitsLoop c.toNat)

theorem land_fifteen (n : Nat) : n &&& 15 = n % 16 := by
  apply Nat.eq_of_testBit_eq
  intro i
  have h15 : (15 : Nat) = 2 ^ 4 - 1 := by norm_num
  have h16 : (16 : Nat) = 2 ^ 4 := by norm_num
  rw [Nat.testBit_land, h15, h16, Nat.testBit_two_pow_sub_one,
    Nat.testBit_mod_two_pow, Bool.and_comm]

theorem n_bits_set_correct : ∀ i : Nat, i < 16 → n_bits_set.getD i 0 = popcount i := by
  decide

theorem countBitsLoop_eq_popcount : ∀ c : Nat, countBitsLoop c = popcount c := by
  intro c
  induction c using Nat.strong_induction_on with
  | _ c ih =>
    by_cases h : c = 0
    · subst h; simp [countBitsLoop, popcount_zero]
    · rw [countBitsLoop, if_neg h]
      have hlt : c >>> 4 < c := by
        rw [Nat.shiftRight_eq_div_pow]
        exact Nat.div_lt_self (Nat.pos_of_ne_zero h) (by norm_num)
      rw [ih (c >>> 4) hlt, land_fifteen,
        n_bits_set_correct (c % 16) (Nat.mod_lt c (by norm_num)),
        Nat.shiftRight_eq_div_pow]
      have h16 : (16 : Nat) = 2 ^ 4 := by norm_num
      rw [h16] at *
      exact (popcount_mod_div 4 c).symm

/-- C2.  For every non-negative integer v, count_bits v returns the
number of one bits of v; for every negative rational input and for
every non-integer rational input it returns an error value instead of
a result. -/
theorem count_bits_spec :
    (∀ v : Nat, count_bits (v : ℚ) = .ok (popcount v)) ∧
    (∀ a : ℚ, a < 0 → ∃ e, count_bits a = .error e) ∧
    (∀ a : ℚ, (∀ z : ℤ, (z : ℚ) ≠ a) → count_bits a = .error "non-integer argument") := by
  refine ⟨?_, ?_, ?_⟩
  · intro v
    have htr : pyTrunc (v : ℚ) = (v : ℤ) := by
      simp [pyTrunc, Nat.cast_nonneg]
    rw [count_bits]
    simp only [htr]
    have hcast : ((v : ℤ) : ℚ) = (v : ℚ) := by push_cast; ring
    rw [if_neg (by simp [hcast])]
    by_cases hv : (v : ℤ) < 1
    · have hv0 : v = 0 := by omega
      subst hv0
      norm_num [popcount_zero]
    · rw [if_neg hv]
      have : ((v : ℤ)).toNat = v := by omega
      rw [this, countBitsLoop_eq_popcount]
  · intro a ha
    by_cases hint : ((pyTrunc a : ℤ) : ℚ) = a
    · refine ⟨"negative argument", ?_⟩
      rw [count_bits]
      simp only [hint]
      have hneg : pyTrunc a < 0 := by
        by_contra h
        push_neg at h
        have : (0 : ℚ) ≤ ((pyTrunc a : ℤ) : ℚ) := by exact_mod_cast h
        rw [hint] at this
        linarith
      rw [if_neg (by simp), if_pos (by omega), if_pos hneg]
    · exact ⟨"non-integer argument", by rw [count_bits]; simp only [if_pos hint]⟩
  · intro a hint
    rw [count_bits]
    simp only [if_pos (fun h => hint _ h)]

/-- Witness for C2 at concrete inputs. -/
theorem count_bits_spec_witness :
    count_bits ((13 : Nat) : ℚ) = .ok 3 ∧
    (∃ e, count_bits (-2 : ℚ) = .error e) ∧
    count_bits ((5 : ℚ) / 2) = .error "non-integer argument" := by
  have hni : ∀ z : ℤ, (z : ℚ) ≠ 5 / 2 := by
    intro z hz
    have h2 : ((2 * z : ℤ) : ℚ) = 5 := by push_cast; linarith
    have h5 : (2 * z : ℤ) = 5 := by exact_mod_cast h2
    omega
  refine ⟨?_, count_bits_spec.2.1 (-2) (by norm_num), count_bits_spec.2.2 (5 / 2) hni⟩
  have h := count_bits_spec.1 13
  have h13 : popcount 13 = 3 := by decide
  rw [h13] at h
  exact h

/-! ## is_non_singleton_split (dendropy.splits.is_non_singleton_split)

Source, dendropy/splits.py lines 76-84.  Python `x and y` returns x
when x is falsy (zero) and y otherwise; truthiness of the result is
its being nonzero. -/

/-- dendropy.splits.is_non_singleton_split: the Python value of
`((split-1) & split) and (((split^mask)-1) & (split^mask))`. -/
def is_non_singleton_split (split mask : Nat) : Nat :=
  if (split - 1) &&& split = 0 then (split - 1) &&& split
  else ((split ^^^ mask) - 1) &&& ((split ^^^ mask))

theorem nat_land_self (n : Nat) : n &&& n = n := by
  apply Nat.eq_of_testBit_eq
  intro i
  rw [Nat.testBit_land, Bool.and_self]

theorem land_double_double (a b : Nat) : (2 * a) &&& (2 * b) = 2 * (a &&& b) := by
  have h := Nat.land_bit false a false b
  simpa [Nat.bit_val] using h

theorem land_double_succ (a b : Nat) : (2 * a) &&& (2 * b + 1) = 2 * (a &&& b) := by
  have h := Nat.land_bit false a true b
  simpa [Nat.bit_val] using h

theorem land_succ_double (a b : Nat) : (2 * a + 1) &&& (2 * b) = 2 * (a &&& b) := by
  have h := Nat.land_bit true a false b
  simpa [Nat.bit_val] using h

/-- The heart of the triviality test: `(n-1) & n` vanishes exactly when
n has at most one bit set. -/
theorem land_pred_self_eq_zero (n : Nat) : ((n - 1) &&& n = 0) ↔ popcount n ≤ 1 := by
  induction n using Nat.strong_induction_on with
  | _ n ih =>
    rcases Nat.eq_zero_or_pos n with h0 | h0
    · subst h0
      simp [popcount_zero]
    · rcases Nat.even_or_odd n with he | ho
      · obtain ⟨m, hm⟩ := he
        have hm2 : n = 2 * m := by omega
        subst hm2
        have hmpos : 1 ≤ m := by omega
        have hpred : 2 * m - 1 = 2 * (m - 1) + 1 := by omega
        rw [hpred, land_succ_double]
        have hml : m < 2 * m := by omega
        have ihm := ih m hml
        rw [popcount_double]
        constructor
        · intro h
          exact ihm.mp (by omega)
        · intro h
          have := ihm.mpr h
          omega
      · obtain ⟨m, hm⟩ := ho
        subst hm
        have hpred : 2 * m + 1 - 1 = 2 * m := by omega
        rw [hpred, land_double_succ, nat_land_self, popcount_double_add_one]
        constructor
        · intro h
          have hm0 : m = 0 := by omega
          subst hm0
          simp [popcount_zero]
        · intro h
          have : popcount m = 0 := by omega
          have hm0 : m = 0 := popcount_eq_zero.mp this
          subst hm0
          rfl

/-- C3.  For splits s that are strict, non-empty, non-full subsets of
the full mask m, is_non_singleton_split s m is truthy (nonzero) iff
both s and s XOR m have more than one bit set. -/
theorem is_non_singleton_split_spec (s m : Nat)
    (hsub : s &&& m = s) (hne : s ≠ 0) (hnf : s ≠ m) :
    is_non_singleton_split s m ≠ 0 ↔ 1 < popcount s ∧ 1 < popcount (s ^^^ m) := by
  unfold is_non_singleton_split
  by_cases h1 : (s - 1) &&& s = 0
  · rw [if_pos h1]
    have hs := (land_pred_self_eq_zero s).mp h1
    simp [h1]
    intro hc
    omega
  · rw [if_neg h1]
    have hs : 1 < popcount s := by
      by_contra hc
      exact h1 ((land_pred_self_eq_zero s).mpr (by omega))
    constructor
    · intro h2
      refine ⟨hs, ?_⟩
      by_contra hc
      exact h2 ((land_pred_self_eq_zero (s ^^^ m)).mpr (by omega))
    · rintro ⟨-, h2⟩ h0
      have := (land_pred_self_eq_zero (s ^^^ m)).mp h0
      omega

/-- Witness for C3 at s = 3, m = 15 (the specification scenario with
four taxa). -/
theorem is_non_singleton_split_spec_witness :
    (3 &&& 15 = 3) ∧ (3 : Nat) ≠ 0 ∧ (3 : Nat) ≠ 15 ∧
    (is_non_singleton_split 3 15 ≠ 0 ↔ 1 < popcount 3 ∧ 1 < popcount (3 ^^^ 15)) :=
  ⟨by decide, by decide, by decide,
    is_non_singleton_split_spec 3 15 (by decide) (by decide) (by decide)⟩

/-! ## Rendering splits as strings (dendropy.splits lines 86-107)

number_to_bitstring, split_as_string, split_as_string_rev.  Python
strings are embedded as lists of characters; str.replace with
one-character patterns is a map over the characters; str.rjust pads on
the left and never truncates. -/

/-- Fuel-bounded helper so number_to_bitstring reduces definitionally. -/
def numToBitsAux : Nat → Nat → List Char
  | _, 0 => []
  | 0, _ + 1 => []
  | fuel + 1, n + 1 =>
      numToBitsAux fuel ((n + 1) >>> 1) ++ [if (n + 1) &&& 1 = 1 then '1' else '0']

/-- dendropy.splits.number_to_bitstring: binary representation of num,
most significant digit first, empty for zero. -/
def number_to_bitstring (num : Nat) : List Char := numToBitsAux num num

theorem numToBitsAux_congr : ∀ f1 f2 n, n ≤ f1 → n ≤ f2 →
    numToBitsAux f1 n = numToBitsAux f2 n := by
  intro f1
  induction f1 with
  | zero =>
    intro f2 n h1 _
    have : n = 0 := Nat.le_zero.mp h1
    subst this
    cases f2 <;> rfl
  | succ g1 ih =>
    intro f2 n h1 h2
    match n, f2 with
    | 0, f2 => cases f2 <;> rfl
    | m + 1, g2 + 1 =>
      show numToBitsAux g1 ((m + 1) >>> 1) ++ _ = numToBitsAux g2 ((m + 1) >>> 1) ++ _
      rw [ih g2 ((m + 1) >>> 1) (by rw [Nat.shiftRight_one]; omega)
        (by rw [Nat.shiftRight_one]; omega)]

theorem number_to_bitstring_step (n : Nat) :
    number_to_bitstring n =
      if n = 0 then []
      else number_to_bitstring (n / 2) ++ [if n % 2 = 1 then '1' else '0'] := by
  match n with
  | 0 => rfl
  | m + 1 =>
    rw [if_neg (Nat.succ_ne_zero m)]
    show numToBitsAux (m + 1) (m + 1) = _
    have h1 : numToBitsAux (m + 1) (m + 1) =
        numToBitsAux m ((m + 1) >>> 1) ++ [if (m + 1) &&& 1 = 1 then '1' else '0'] := rfl
    rw [h1, Nat.and_one_is_mod, Nat.shiftRight_one,
      numToBitsAux_congr m ((m + 1) / 2) ((m + 1) / 2) (by omega) le_rfl]
    rfl

/-- Python str.rjust with a one-character fill. -/
def rjust (s : List Char) (w : Nat) (c : Char) : List Char :=
  List.replicate (w - s.length) c ++ s

/-- Python str.replace with one-character pattern and replacement. -/
def replaceChar (s : List Char) (a b : Char) : List Char :=
  s.map (fun c => if c = a then b else c)

/-- dendropy.splits.split_as_string; the taxa block enters only
through its length, passed here as taxa_count. -/
def split_as_string (split_mask : Nat) (taxa_count : Nat)
    (symbol1 : Char := '.') (symbol2 : Char := '*') : List Char :=
  replaceChar (replaceChar (rjust (number_to_bitstring split_mask) taxa_count '0')
    '0' symbol1) '1' symbol2

/-- dendropy.splits.split_as_string_rev: the same string reversed. -/
def split_as_string_rev (split_mask : Nat) (taxa_count : Nat)
    (symbol1 : Char := '.') (symbol2 : Char := '*') : List Char :=
  (split_as_string split_mask taxa_count symbol1 symbol2).reverse

theorem rjust_append_singleton (s : List Char) (c : Char) (w : Nat) (ch : Char) :
    rjust (s ++ [c]) (w + 1) ch = rjust s w ch ++ [c] := by
  simp only [rjust, List.length_append, List.length_singleton]
  rw [show w + 1 - (s.length + 1) = w - s.length by omega, List.append_assoc]

/-- The padded bitstring lists the bits of m from most significant
position taxa_count-1 down to position 0. -/
theorem rjust_number_to_bitstring (len : Nat) : ∀ m : Nat, m < 2 ^ len →
    rjust (number_to_bitstring m) len '0' =
      (List.range len).map (fun i => if m.testBit (len - 1 - i) then '1' else '0') := by
  induction len with
  | zero =>
    intro m hm
    have : m = 0 := by omega
    subst this
    rfl
  | succ len ih =>
    intro m hm
    rcases Nat.eq_zero_or_pos m with h0 | h0
    · subst h0
      have hbody : ∀ i ∈ List.range (len + 1),
          (if Nat.testBit 0 (len + 1 - 1 - i) then '1' else '0') = '0' := by
        intro i _
        simp [Nat.zero_testBit]
      rw [List.map_congr_left hbody]
      show rjust [] (len + 1) '0' = _
      simp [rjust, List.map_const']
    · rw [number_to_bitstring_step, if_neg (by omega)]
      rw [rjust_append_singleton]
      have hdiv : m / 2 < 2 ^ len := by
        have h2 : (2 : Nat) ^ (len + 1) = 2 ^ len * 2 := by ring
        omega
      rw [ih (m / 2) hdiv]
      rw [List.range_succ, List.map_append]
      congr 1
      · apply List.map_congr_left
        intro i hi
        have hilt : i < len := List.mem_range.mp hi
        have harg : len + 1 - 1 - i = (len - 1 - i) + 1 := by omega
        rw [harg, Nat.testBit_succ]
      · have : len + 1 - 1 - len = 0 := by omega
        simp only [List.map_cons, List.map_nil, this, Nat.testBit_zero]
        by_cases hp : m % 2 = 1 <;> simp [hp]

/-- Characterization of split_as_string when the split fits in
taxa_count bits and the absent symbol is not the character 1 (the
chained replaces corrupt the output otherwise). -/
theorem split_as_string_spec (m len : Nat) (s1 s2 : Char)
    (hm : m < 2 ^ len) (hs1 : s1 ≠ '1') :
    split_as_string m len s1 s2 =
      (List.range len).map (fun i => if m.testBit (len - 1 - i) then s2 else s1) := by
  rw [split_as_string, rjust_number_to_bitstring len m hm]
  rw [replaceChar, replaceChar, List.map_map, List.map_map]
  apply List.map_congr_left
  intro i _
  by_cases hb : m.testBit (len - 1 - i) <;> simp [hb, Function.comp, hs1]

/-- C8 (amended).  With the split below 2 to the taxa count and an
absent symbol other than the character 1, split_as_string has length
exactly taxa_count with the present symbol exactly at the set bits
(most significant first), and split_as_string_rev is its reversal,
equivalently the same string with the first taxon leftmost. -/
theorem split_as_string_render (m len : Nat) (s1 s2 : Char)
    (hm : m < 2 ^ len) (hs1 : s1 ≠ '1') :
    (split_as_string m len s1 s2).length = len ∧
    split_as_string m len s1 s2 =
      (List.range len).map (fun i => if m.testBit (len - 1 - i) then s2 else s1) ∧
    split_as_string_rev m len s1 s2 =
      (List.range len).map (fun i => if m.testBit i then s2 else s1) := by
  have hc := split_as_string_spec m len s1 s2 hm hs1
  refine ⟨by rw [hc]; simp, hc, ?_⟩
  have hrev : (List.range len).reverse = (List.range len).map (fun i => len - 1 - i) := by
    rw [List.range_eq_range', List.reverse_range', ← List.range_eq_range']
    apply List.map_congr_left
    intro i _
    omega
  rw [split_as_string_rev, hc, ← List.map_reverse, hrev, List.map_map]
  apply List.map_congr_left
  intro i hi
  have hilt : i < len := List.mem_range.mp hi
  have harg : len - 1 - (len - 1 - i) = i := by omega
  simp [Function.comp, harg]

/-- Witness for C8 (amended) at m = 5, len = 4, default symbols. -/
theorem split_as_string_render_witness :
    (split_as_string 5 4 '.' '*').length = 4 ∧
    split_as_string 5 4 '.' '*' =
      (List.range 4).map (fun i => if Nat.testBit 5 (4 - 1 - i) then '*' else '.') ∧
    split_as_string_rev 5 4 '.' '*' =
      (List.range 4).map (fun i => if Nat.testBit 5 i then '*' else '.') :=
  split_as_string_render 5 4 '.' '*' (by norm_num) (by decide)

/-- C8 counterexample to the claim as stated: with taxa_count 1 and a
split whose bits do not all lie below taxa_count the result is longer
than taxa_count, and with absent symbol 1 the claimed output would be
the one-character string 1, but the code produces the present symbol
instead. -/
theorem split_as_string_claim_cex :
    (split_as_string 2 1 '.' '*').length = 2 ∧ (2 : Nat) ≠ 1 ∧
    split_as_string 0 1 '1' '*' = ['*'] ∧ ('*' : Char) ≠ '1' := by
  refine ⟨?_, by decide, ?_, by decide⟩
  · show (replaceChar (replaceChar (rjust (numToBitsAux 2 2) 1 '0') '0' '.') '1' '*').length = 2
    decide
  · show replaceChar (replaceChar (rjust (numToBitsAux 0 0) 1 '0') '0' '1') '1' '*' = ['*']
    decide

/-- Reconstructing the mask from a rendered string: read the
characters most significant first, taking each occurrence of the
present symbol as a set bit. -/
def rederiveMask (s : List Char) (sym : Char) : Nat :=
  s.foldl (fun acc c => 2 * acc + (if c = sym then 1 else 0)) 0

theorem rederive_fold (len : Nat) : ∀ m acc : Nat, m < 2 ^ len →
    List.foldl (fun acc c => 2 * acc + (if c = '*' then 1 else 0)) acc
      ((List.range len).map (fun i => if m.testBit (len - 1 - i) then '*' else '.')) =
      acc * 2 ^ len + m := by
  induction len with
  | zero =>
    intro m acc hm
    have : m = 0 := by omega
    subst this
    simp
  | succ len ih =>
    intro m acc hm
    rw [List.range_succ_eq_map, List.map_cons, List.foldl_cons, List.map_map]
    rw [show len + 1 - 1 - 0 = len from by omega]
    have hmsb : (2 * acc + (if (if m.testBit len then '*' else '.') = '*' then 1 else 0)) =
        2 * acc + (m.testBit len).toNat := by
      by_cases hb : m.testBit len <;> simp [hb]
    rw [hmsb]
    have hbody : ∀ i ∈ List.range len,
        ((fun i => if m.testBit (len + 1 - 1 - i) then '*' else '.') ∘ Nat.succ) i =
          (fun i => if (m % 2 ^ len).testBit (len - 1 - i) then '*' else '.') i := by
      intro i hi
      have hilt : i < len := List.mem_range.mp hi
      have h1 : len + 1 - 1 - (i + 1) = len - 1 - i := by omega
      have h2 : (m % 2 ^ len).testBit (len - 1 - i) = m.testBit (len - 1 - i) := by
        rw [Nat.testBit_mod_two_pow]
        have : len - 1 - i < len := by omega
        simp [this]
      simp only [Function.comp, h1, h2]
    rw [List.map_congr_left hbody]
    rw [ih (m % 2 ^ len) _ (Nat.mod_lt m (Nat.pos_pow_of_pos len (by norm_num)))]
    have hpow : (2 : Nat) ^ (len + 1) = 2 ^ len * 2 := by ring
    have hpos : 0 < 2 ^ len := Nat.pos_pow_of_pos len (by norm_num)
    have hdm := Nat.div_add_mod m (2 ^ len)
    have hdlt : m / 2 ^ len < 2 := by
      rw [Nat.div_lt_iff_lt_mul hpos]
      rw [hpow] at hm
      omega
    have hdecomp : (m.testBit len).toNat * 2 ^ len + m % 2 ^ len = m := by
      have hdb : m.testBit len = decide (m / 2 ^ len % 2 = 1) := Nat.testBit_to_div_mod
      have hd01 : m / 2 ^ len = 0 ∨ m / 2 ^ len = 1 :=
        Nat.le_one_iff_eq_zero_or_eq_one.mp (Nat.lt_succ_iff.mp hdlt)
      rcases hd01 with h | h
      · rw [h] at hdm
        rw [hdb, h]
        simpa using hdm
      · rw [h] at hdm
        rw [hdb, h]
        simpa using hdm
    have hsplit : (2 * acc + (m.testBit len).toNat) * 2 ^ len + m % 2 ^ len =
        acc * (2 ^ len * 2) + ((m.testBit len).toNat * 2 ^ len + m % 2 ^ len) := by ring
    rw [hsplit, hdecomp, ← hpow]

/-- C9.  For a split whose set bits all lie below taxa_count,
rendering with split_as_string (default symbols) and re-deriving the
set-bit positions by locating the present symbol reproduces the
original mask. -/
theorem split_render_round_trip (m len : Nat) (hm : m < 2 ^ len) :
    rederiveMask (split_as_string m len '.' '*') '*' = m := by
  rw [rederiveMask, split_as_string_spec m len '.' '*' hm (by decide)]
  have h := rederive_fold len m 0 hm
  rw [h]
  omega

/-- Witness for C9 at m = 11, len = 5. -/
theorem split_render_round_trip_witness :
    rederiveMask (split_as_string 11 5 '.' '*') '*' = 11 :=
  split_render_round_trip 11 5 (by norm_num)

/-! ## Trees, taxa blocks and the split encoder
(dendropy.splits.encode_splits, lines 121-153)

A dendropy node owns its subtending edge, so an edge is identified
with the subtree hanging from its head node; the edge's length is the
length stored at that subtree's root.  The taxa block, whose class
lives outside the given source slice, is modelled from the spec as an
ordered duplicate-free list of taxon identifiers whose positions are
the bit indices. -/

inductive PyTree where
  | node (taxon : Option Nat) (length : Option ℚ) (children : List PyTree)

mutual
def PyTree.decEq : (a b : PyTree) → Decidable (a = b)
  | .node tx1 ln1 cs1, .node tx2 ln2 cs2 =>
    if h1 : tx1 = tx2 then
      if h2 : ln1 = ln2 then
        match PyTree.decEqList cs1 cs2 with
        | isTrue h3 => isTrue (by rw [h1, h2, h3])
        | isFalse h3 => isFalse (by intro h; injection h; contradiction)
      else isFalse (by intro h; injection h; contradiction)
    else isFalse (by intro h; injection h; contradiction)
def PyTree.decEqList : (a b : List PyTree) → Decidable (a = b)
  | [], [] => isTrue rfl
  | [], _ :: _ => isFalse (by intro h; injection h)
  | _ :: _, [] => isFalse (by intro h; injection h)
  | c1 :: t1, c2 :: t2 =>
    match PyTree.decEq c1 c2 with
    | isTrue h1 =>
      match PyTree.decEqList t1 t2 with
      | isTrue h2 => isTrue (by rw [h1, h2])
      | isFalse h2 => isFalse (by intro h; injection h; contradiction)
    | isFalse h1 => isFalse (by intro h; injection h; contradiction)
end

instance : DecidableEq PyTree := PyTree.decEq

/-- child_nodes() of the head node. -/
def PyTree.children : PyTree → List PyTree
  | .node _ _ cs => cs

/-- The taxon of the head node, if any. -/
def PyTree.taxon : PyTree → Option Nat
  | .node tx _ _ => tx

/-- The length carried by the edge. -/
def PyTree.length : PyTree → Option ℚ
  | .node _ ln _ => ln

/-- Modelled from the spec: the taxon universe, an ordered
duplicate-free sequence of taxon identifiers; the stable 0-based
position of a taxon is its bit index. -/
abbrev TaxaBlock : Type := List Nat

/-- Modelled from the spec: the 0-based index of a taxon in the
block, none when the taxon has not been admitted. -/
def taxonIndex : TaxaBlock → Nat → Option Nat
  | [], _ => none
  | x :: t, y => if x = y then some 0 else (taxonIndex t y).map (· + 1)

/-- Modelled from the spec: taxa_block.taxon_bitmask, the singleton
mask with only the taxon's bit set; none for an unknown taxon. -/
def taxon_bitmask (tb : TaxaBlock) (x : Nat) : Option Nat :=
  (taxonIndex tb x).map (fun i => 2 ^ i)

/-- Modelled from the spec: taxa_block.all_taxa_bitmask, one set bit
per admitted taxon. -/
def all_taxa_bitmask (tb : TaxaBlock) : Nat := 2 ^ tb.length - 1

theorem taxonIndex_isSome {tb : TaxaBlock} {x : Nat} (h : x ∈ tb) :
    ∃ i, taxonIndex tb x = some i := by
  induction tb with
  | nil => cases h
  | cons y t ih =>
    by_cases hxy : y = x
    · exact ⟨0, by simp [taxonIndex, hxy]⟩
    · have hxt : x ∈ t := by
        cases List.mem_cons.mp h with
        | inl h1 => exact absurd h1.symm hxy
        | inr h1 => exact h1
      obtain ⟨i, hi⟩ := ih hxt
      exact ⟨i + 1, by simp [taxonIndex, hxy, hi]⟩

theorem taxon_bitmask_isSome {tb : TaxaBlock} {x : Nat} (h : x ∈ tb) :
    ∃ b, taxon_bitmask tb x = some b := by
  obtain ⟨i, hi⟩ := taxonIndex_isSome h
  exact ⟨2 ^ i, by simp [taxon_bitmask, hi]⟩

mutual
/-- Modelled from the spec: tree.postorder_edge_iter, one edge per
node, children fully processed before their parent. -/
def postorderNodes : PyTree → List PyTree
  | .node tx ln cs => postorderNodesList cs ++ [.node tx ln cs]
def postorderNodesList : List PyTree → List PyTree
  | [] => []
  | c :: cs => postorderNodes c ++ postorderNodesList cs
end

mutual
/-- All taxa referenced anywhere in the tree. -/
def treeTaxa : PyTree → List Nat
  | .node tx _ cs => (match tx with | some x => [x] | none => []) ++ treeTaxaList cs
def treeTaxaList : List PyTree → List Nat
  | [] => []
  | c :: cs => treeTaxa c ++ treeTaxaList cs
end

mutual
/-- The intended denotation of each edge's split mask: singleton bit
or zero at a leaf, accumulated bitwise OR over the children of an
internal node, in the left-to-right order the code uses. -/
def subtreeMask (tb : TaxaBlock) : PyTree → Nat
  | .node tx _ [] => (match tx with | some x => (taxon_bitmask tb x).getD 0 | none => 0)
  | .node _ _ (c :: cs) => subtreeMaskList tb 0 (c :: cs)
def subtreeMaskList (tb : TaxaBlock) (acc : Nat) : List PyTree → Nat
  | [] => acc
  | c :: cs => subtreeMaskList tb (acc ||| subtreeMask tb c) cs
end

/-- A dendropy Tree: a seed node plus the rootedness flag read by
encode_splits. -/
structure Tree where
  seed_node : PyTree
  is_rooted : Bool

/-- The edge-to-split map attached to a tree by encode_splits: either
a plain dict keyed by the raw split mask, or the canonicalizing
NormalizedBitmaskDict, which carries the full taxon mask. -/
inductive SplitEdges where
  | plain (entries : List (Nat × PyTree))
  | normalized (full : Nat) (entries : List (Nat × PyTree))

def SplitEdges.entries : SplitEdges → List (Nat × PyTree)
  | .plain e => e
  | .normalized _ e => e

/-- Modelled from the spec: the canonical representative of the pair
of a mask and its complement within the full mask, chosen so that the
distinguished first taxon's bit is cleared. -/
def normKey (mask full : Nat) : Nat :=
  if mask.testBit 0 then mask ^^^ full else mask

/-- Modelled from the spec: the NormalizedBitmaskDict constructor,
re-inserting every binding of the raw map under its canonical key. -/
def normalizeMap (full : Nat) (mp : List (Nat × PyTree)) : List (Nat × PyTree) :=
  mp.foldl (fun d p => pset (normKey p.1 full) p.2 d) []

/-- The inner accumulation of encode_splits at an internal node:
starting from the zero mask set on the edge, OR in each child edge's
split_mask attribute; reading a child whose attribute was never set
is Python's AttributeError. -/
def gatherChildMasks (s : List (PyTree × Nat)) : Nat → List PyTree → Except String Nat
  | acc, [] => .ok acc
  | acc, c :: cs =>
    match plookup c s with
    | some m => gatherChildMasks s (acc ||| m) cs
    | none => .error "AttributeError: split_mask"

/-- One iteration of the postorder loop of encode_splits: compute the
edge's split_mask (leaf rules or child OR), store it on the edge, and
bind it in the split map. -/
def encodeStep (tb : TaxaBlock) (acc : List (PyTree × Nat) × List (Nat × PyTree))
    (u : PyTree) : Except String (List (PyTree × Nat) × List (Nat × PyTree)) :=
  match u.children with
  | [] =>
    match u.taxon with
    | some x =>
      match taxon_bitmask tb x with
      | some b => .ok (pset u b acc.1, pset b u acc.2)
      | none => .error "UnknownTaxon"
    | none => .ok (pset u 0 acc.1, pset 0 u acc.2)
  | c :: cs' =>
    match gatherChildMasks acc.1 0 (c :: cs') with
    | .ok m => .ok (pset u m acc.1, pset m u acc.2)
    | .error e => .error e

/-- The whole postorder loop of encode_splits: edge split_mask
attributes on the left, the raw split map on the right. -/
def encodeFold (tb : TaxaBlock) (t : PyTree) :
    Except String (List (PyTree × Nat) × List (Nat × PyTree)) :=
  (postorderNodes t).foldlM (encodeStep tb) ([], [])

/-- dendropy.splits.encode_splits (the taxa block is always supplied
by the callers modelled here): run the postorder loop, then store the
split map either as a plain dict or wrapped in the canonicalizing
NormalizedBitmaskDict according to the unrooted argument and the
tree's own rootedness flag. -/
def encode_splits (tb : TaxaBlock) (tree : Tree) (unrooted : Option Bool) :
    Except String SplitEdges :=
  match encodeFold tb tree.seed_node with
  | .error e => .error e
  | .ok (_, split_map) =>
    if (match unrooted with | some b => !b | none => tree.is_rooted) then
      .ok (.plain split_map)
    else
      .ok (.normalized (all_taxa_bitmask tb) (normalizeMap (all_taxa_bitmask tb) split_map))

/-! ## Correctness of the postorder encoding loop -/

theorem plookup_mem {κ α : Type} [DecidableEq κ] {k : κ} {v : α} {l : List (κ × α)}
    (h : plookup k l = some v) : (k, v) ∈ l := by
  induction l with
  | nil => simp [plookup] at h
  | cons p t ih =>
    obtain ⟨k', v'⟩ := p
    by_cases hk : k' = k
    · rw [plookup, if_pos hk] at h
      subst hk
      have hv : v' = v := Option.some_inj.mp h
      subst hv
      exact List.mem_cons_self _ _
    · rw [plookup, if_neg hk] at h
      exact List.mem_cons_of_mem _ (ih h)

theorem mem_pset {κ α : Type} [DecidableEq κ] {p : κ × α} {k : κ} {v : α}
    {l : List (κ × α)} (h : p ∈ pset k v l) : p = (k, v) ∨ p ∈ l := by
  induction l with
  | nil => simpa [pset] using h
  | cons q t ih =>
    obtain ⟨k0, v0⟩ := q
    by_cases h0 : k0 = k
    · rw [pset, if_pos h0] at h
      rcases List.mem_cons.mp h with h1 | h1
      · exact Or.inl h1
      · exact Or.inr (List.mem_cons_of_mem _ h1)
    · rw [pset, if_neg h0] at h
      rcases List.mem_cons.mp h with h1 | h1
      · exact Or.inr (h1 ▸ List.mem_cons_self _ _)
      · rcases ih h1 with h2 | h2
        · exact Or.inl h2
        · exact Or.inr (List.mem_cons_of_mem _ h2)

/-- Every split_mask value recorded on an edge is the denotation of
that edge's subtree. -/
def maskInv (tb : TaxaBlock) (s : List (PyTree × Nat)) : Prop :=
  ∀ p ∈ s, p.2 = subtreeMask tb p.1

/-- What the raw split map becomes after the loop processes a node. -/
def specPset (tb : TaxaBlock) (m : List (Nat × PyTree)) (u : PyTree) :
    List (Nat × PyTree) :=
  pset (subtreeMask tb u) u m

/-- The loop invariant bundle: processing the given node list from
state s and map mp succeeds, produces the predicted map, keeps the
mask invariant, loses no recorded edge, and records every processed
edge. -/
def EncodeRun (tb : TaxaBlock) (nodes : List PyTree) (s : List (PyTree × Nat))
    (mp : List (Nat × PyTree)) (s' : List (PyTree × Nat)) : Prop :=
  (nodes.foldlM (encodeStep tb) (s, mp) = .ok (s', nodes.foldl (specPset tb) mp)) ∧
  maskInv tb s' ∧
  (∀ u : PyTree, plookup u s ≠ none → plookup u s' ≠ none) ∧
  (∀ u ∈ nodes, plookup u s' ≠ none)

theorem encodeRun_nil (tb : TaxaBlock) (s : List (PyTree × Nat))
    (mp : List (Nat × PyTree)) (hs : maskInv tb s) : EncodeRun tb [] s mp s :=
  ⟨rfl, hs, fun _ h => h, fun u h => absurd h (List.not_mem_nil u)⟩

theorem encodeRun_append (tb : TaxaBlock) (ns1 ns2 : List PyTree)
    (s : List (PyTree × Nat)) (mp : List (Nat × PyTree))
    (s1 s2 : List (PyTree × Nat))
    (h1 : EncodeRun tb ns1 s mp s1)
    (h2 : EncodeRun tb ns2 s1 (ns1.foldl (specPset tb) mp) s2) :
    EncodeRun tb (ns1 ++ ns2) s mp s2 := by
  obtain ⟨hf1, _, hm1, hp1⟩ := h1
  obtain ⟨hf2, hi2, hm2, hp2⟩ := h2
  refine ⟨?_, hi2, fun u h => hm2 u (hm1 u h), ?_⟩
  · rw [List.foldlM_append, hf1]
    show Except.bind _ _ = _
    rw [Except.bind]
    rw [hf2, List.foldl_append]
  · intro u hu
    rcases List.mem_append.mp hu with h | h
    · exact hm2 u (hp1 u h)
    · exact hp2 u h

theorem gatherChildMasks_spec (tb : TaxaBlock) (s : List (PyTree × Nat))
    (hs : maskInv tb s) :
    ∀ cs : List PyTree, ∀ acc : Nat, (∀ c ∈ cs, plookup c s ≠ none) →
    gatherChildMasks s acc cs = .ok (subtreeMaskList tb acc cs) := by
  intro cs
  induction cs with
  | nil => intro acc _; rfl
  | cons c cs' ih =>
    intro acc h
    have hc := h c (List.mem_cons_self c cs')
    cases hm : plookup c s with
    | none => exact absurd hm hc
    | some m =>
      have hmem : (c, m) ∈ s := plookup_mem hm
      have hval : m = subtreeMask tb c := hs (c, m) hmem
      rw [gatherChildMasks, hm]
      show gatherChildMasks s (acc ||| m) cs' = _
      rw [hval, subtreeMaskList]
      exact ih (acc ||| subtreeMask tb c) fun c' h' => h c' (List.mem_cons_of_mem c h')

theorem encodeStep_eq (tb : TaxaBlock) (u : PyTree) (s : List (PyTree × Nat))
    (mp : List (Nat × PyTree)) (hs : maskInv tb s)
    (hchild : ∀ c ∈ u.children, plookup c s ≠ none)
    (htx : ∀ x, u.children = [] → u.taxon = some x → x ∈ tb) :
    encodeStep tb (s, mp) u =
      .ok (pset u (subtreeMask tb u) s, pset (subtreeMask tb u) u mp) := by
  obtain ⟨tx, ln, cs⟩ := u
  match hcs : cs with
  | [] =>
    match htx2 : tx with
    | some x =>
      have hx : x ∈ tb := htx x rfl rfl
      obtain ⟨b, hb⟩ := taxon_bitmask_isSome hx
      have hmask : subtreeMask tb (PyTree.node (some x) ln []) = b := by
        rw [subtreeMask, hb]
        rfl
      have hstep : encodeStep tb (s, mp) (PyTree.node (some x) ln []) =
          (match taxon_bitmask tb x with
            | some b => Except.ok (pset (PyTree.node (some x) ln []) b s,
                pset b (PyTree.node (some x) ln []) mp)
            | none => Except.error "UnknownTaxon") := rfl
      rw [hstep, hb, hmask]
    | none =>
      have hmask : subtreeMask tb (PyTree.node none ln []) = 0 := by
        rw [subtreeMask]
      rw [hmask]
      rfl
  | c :: cs' =>
    have hgather := gatherChildMasks_spec tb s hs (c :: cs') 0 hchild
    have hmask : subtreeMask tb (PyTree.node tx ln (c :: cs')) =
        subtreeMaskList tb 0 (c :: cs') := by
      rw [subtreeMask]
    have hstep : encodeStep tb (s, mp) (PyTree.node tx ln (c :: cs')) =
        (match gatherChildMasks s 0 (c :: cs') with
          | .ok m => Except.ok (pset (PyTree.node tx ln (c :: cs')) m s,
              pset m (PyTree.node tx ln (c :: cs')) mp)
          | .error e => Except.error e) := rfl
    rw [hstep, hgather, hmask]

theorem encodeRun_single (tb : TaxaBlock) (u : PyTree) (s : List (PyTree × Nat))
    (mp : List (Nat × PyTree)) (hs : maskInv tb s)
    (hchild : ∀ c ∈ u.children, plookup c s ≠ none)
    (htx : ∀ x, u.children = [] → u.taxon = some x → x ∈ tb) :
    EncodeRun tb [u] s mp (pset u (subtreeMask tb u) s) := by
  refine ⟨?_, ?_, ?_, ?_⟩
  · show Except.bind (encodeStep tb (s, mp) u) _ = _
    rw [encodeStep_eq tb u s mp hs hchild htx, Except.bind]
    rfl
  · intro p hp
    rcases mem_pset hp with h | h
    · rw [h]
    · exact hs p h
  · intro u' h
    by_cases he : u' = u
    · subst he
      rw [plookup_pset_self]
      exact fun hc => Option.noConfusion hc
    · rw [plookup_pset_ne _ _ he]
      exact h
  · intro u' hu'
    have : u' = u := by simpa using hu'
    subst this
    rw [plookup_pset_self]
    exact fun hc => Option.noConfusion hc

theorem self_mem_postorderNodes (t : PyTree) : t ∈ postorderNodes t := by
  obtain ⟨tx, ln, cs⟩ := t
  rw [postorderNodes]
  exact List.mem_append_right _ (List.mem_singleton.mpr rfl)

theorem mem_postorderNodesList_iff (cs : List PyTree) (u : PyTree) :
    u ∈ postorderNodesList cs ↔ ∃ c ∈ cs, u ∈ postorderNodes c := by
  induction cs with
  | nil =>
    rw [postorderNodesList]
    simp
  | cons c cs' ih =>
    rw [postorderNodesList, List.mem_append, ih]
    constructor
    · rintro (h | ⟨c', hc', hu⟩)
      · exact ⟨c, List.mem_cons_self c cs', h⟩
      · exact ⟨c', List.mem_cons_of_mem c hc', hu⟩
    · rintro ⟨c', hc', hu⟩
      rcases List.mem_cons.mp hc' with h | h
      · exact Or.inl (h ▸ hu)
      · exact Or.inr ⟨c', h, hu⟩

theorem mem_postorderNodesList_of_mem {cs : List PyTree} {c : PyTree} (h : c ∈ cs) :
    c ∈ postorderNodesList cs :=
  (mem_postorderNodesList_iff cs c).mpr ⟨c, h, self_mem_postorderNodes c⟩

theorem sizeOf_child_lt (tx : Option Nat) (ln : Option ℚ) {cs : List PyTree}
    {c : PyTree} (h : c ∈ cs) : sizeOf c < sizeOf (PyTree.node tx ln cs) := by
  have h1 : sizeOf c < sizeOf cs := List.sizeOf_lt_of_mem h
  have h2 : sizeOf (PyTree.node tx ln cs) = 1 + sizeOf tx + sizeOf ln + sizeOf cs :=
    PyTree.node.sizeOf_spec tx ln cs
  omega

theorem children_mem_postorderNodes : ∀ n : Nat, ∀ t : PyTree, sizeOf t ≤ n →
    ∀ u ∈ postorderNodes t, ∀ c ∈ u.children, c ∈ postorderNodes t := by
  intro n
  induction n using Nat.strong_induction_on with
  | _ n ih =>
    intro t hsz u hu c hc
    obtain ⟨tx, ln, cs⟩ := t
    rw [postorderNodes] at hu ⊢
    rcases List.mem_append.mp hu with h | h
    · obtain ⟨c0, hc0, hu0⟩ := (mem_postorderNodesList_iff cs u).mp h
      have hself := sizeOf_child_lt tx ln hc0
      have hrec := ih (sizeOf c0) (by omega) c0 le_rfl u hu0 c hc
      exact List.mem_append_left _ ((mem_postorderNodesList_iff cs c).mpr ⟨c0, hc0, hrec⟩)
    · have hu2 : u = PyTree.node tx ln cs := by simpa using h
      subst hu2
      have hcc : c ∈ cs := hc
      exact List.mem_append_left _ (mem_postorderNodesList_of_mem hcc)

theorem mem_treeTaxaList_of_mem {cs : List PyTree} {c : PyTree} {x : Nat}
    (hc : c ∈ cs) (hx : x ∈ treeTaxa c) : x ∈ treeTaxaList cs := by
  induction cs with
  | nil => cases hc
  | cons c0 cs' ih =>
    rw [treeTaxaList, List.mem_append]
    rcases List.mem_cons.mp hc with h | h
    · exact Or.inl (h ▸ hx)
    · exact Or.inr (ih h)

theorem treeTaxaList_subset_treeTaxa {tx : Option Nat} {ln : Option ℚ}
    {cs : List PyTree} {x : Nat} (h : x ∈ treeTaxaList cs) :
    x ∈ treeTaxa (PyTree.node tx ln cs) := by
  rw [treeTaxa.eq_def]
  exact List.mem_append_right _ h

theorem taxon_mem_treeTaxa : ∀ n : Nat, ∀ t : PyTree, sizeOf t ≤ n →
    ∀ u ∈ postorderNodes t, ∀ x : Nat, u.taxon = some x → x ∈ treeTaxa t := by
  intro n
  induction n using Nat.strong_induction_on with
  | _ n ih =>
    intro t hsz u hu x hx
    obtain ⟨tx, ln, cs⟩ := t
    rw [postorderNodes] at hu
    rcases List.mem_append.mp hu with h | h
    · obtain ⟨c0, hc0, hu0⟩ := (mem_postorderNodesList_iff cs u).mp h
      have hself := sizeOf_child_lt tx ln hc0
      have hrec := ih (sizeOf c0) (by omega) c0 le_rfl u hu0 x hx
      exact treeTaxaList_subset_treeTaxa (mem_treeTaxaList_of_mem hc0 hrec)
    · have hu2 : u = PyTree.node tx ln cs := by simpa using h
      subst hu2
      have htx : tx = some x := hx
      rw [htx, treeTaxa.eq_def]
      simp

/-- List-level pass of the existence proof, parameterized by a
recursion hypothesis bounded in size. -/
theorem encodeRunList_exists (tb : TaxaBlock) (n : Nat)
    (rec : ∀ c : PyTree, sizeOf c < n →
      ∀ s mp, (∀ x ∈ treeTaxa c, x ∈ tb) → maskInv tb s →
      ∃ s', EncodeRun tb (postorderNodes c) s mp s') :
    ∀ cs : List PyTree, (∀ c ∈ cs, sizeOf c < n) →
    ∀ s mp, (∀ x ∈ treeTaxaList cs, x ∈ tb) → maskInv tb s →
    ∃ s', EncodeRun tb (postorderNodesList cs) s mp s' := by
  intro cs
  induction cs with
  | nil =>
    intro _ s mp _ hs
    rw [postorderNodesList]
    exact ⟨s, encodeRun_nil tb s mp hs⟩
  | cons c cs' ih =>
    intro hsz s mp hT hs
    have hTc : ∀ x ∈ treeTaxa c, x ∈ tb := fun x hx =>
      hT x (by rw [treeTaxaList]; exact List.mem_append_left _ hx)
    obtain ⟨s1, hrun1⟩ := rec c (hsz c (List.mem_cons_self c cs')) s mp hTc hs
    have hTcs : ∀ x ∈ treeTaxaList cs', x ∈ tb := fun x hx =>
      hT x (by rw [treeTaxaList]; exact List.mem_append_right _ hx)
    obtain ⟨s2, hrun2⟩ := ih (fun c' h => hsz c' (List.mem_cons_of_mem c h)) s1
      ((postorderNodes c).foldl (specPset tb) mp) hTcs hrun1.2.1
    rw [postorderNodesList]
    exact ⟨s2, encodeRun_append tb _ _ s mp s1 s2 hrun1 hrun2⟩

/-- The existence half of the encoder's correctness: when every taxon
of the tree is in the block, the postorder loop succeeds, the final
split_mask attributes all carry the denotation, every edge is
recorded, and the raw split map is the predicted fold. -/
theorem encodeRun_exists (tb : TaxaBlock) : ∀ n : Nat, ∀ t : PyTree, sizeOf t ≤ n →
    ∀ s mp, (∀ x ∈ treeTaxa t, x ∈ tb) → maskInv tb s →
    ∃ s', EncodeRun tb (postorderNodes t) s mp s' := by
  intro n
  induction n using Nat.strong_induction_on with
  | _ n ih =>
    intro t hsz s mp hT hs
    obtain ⟨tx, ln, cs⟩ := t
    have hrec : ∀ c : PyTree, sizeOf c < n →
        ∀ s mp, (∀ x ∈ treeTaxa c, x ∈ tb) → maskInv tb s →
        ∃ s', EncodeRun tb (postorderNodes c) s mp s' := by
      intro c hcn
      exact ih (sizeOf c) hcn c le_rfl
    have hszcs : ∀ c ∈ cs, sizeOf c < n := by
      intro c hc
      have := sizeOf_child_lt tx ln hc
      omega
    have hTcs : ∀ x ∈ treeTaxaList cs, x ∈ tb := fun x hx =>
      hT x (treeTaxaList_subset_treeTaxa hx)
    obtain ⟨s1, hrun1⟩ :=
      encodeRunList_exists tb n hrec cs hszcs s mp hTcs hs
    have hchild : ∀ c ∈ (PyTree.node tx ln cs).children, plookup c s1 ≠ none := by
      intro c hc
      exact hrun1.2.2.2 c (mem_postorderNodesList_of_mem hc)
    have htxc : ∀ x, (PyTree.node tx ln cs).children = [] →
        (PyTree.node tx ln cs).taxon = some x → x ∈ tb := by
      intro x hcs0 htx0
      apply hT
      have : tx = some x := htx0
      rw [this, treeTaxa.eq_def]
      simp
    have hrun2 := encodeRun_single tb (PyTree.node tx ln cs) s1
      ((postorderNodesList cs).foldl (specPset tb) mp) hrun1.2.1 hchild htxc
    rw [postorderNodes]
    exact ⟨_, encodeRun_append tb _ _ s mp s1 _ hrun1 hrun2⟩

/-- Packaged corollary at the top level: encodeFold succeeds and its
results are characterized. -/
theorem encodeFold_ok (tb : TaxaBlock) (t : PyTree)
    (hT : ∀ x ∈ treeTaxa t, x ∈ tb) :
    ∃ st, encodeFold tb t =
        .ok (st, (postorderNodes t).foldl (specPset tb) []) ∧
      maskInv tb st ∧
      (∀ u ∈ postorderNodes t, plookup u st ≠ none) := by
  obtain ⟨st, hrun⟩ := encodeRun_exists tb (sizeOf t) t le_rfl [] [] hT
    (fun p hp => absurd hp (List.not_mem_nil p))
  exact ⟨st, hrun.1, hrun.2.1, hrun.2.2.2⟩

theorem foldl_or_lookup (tb : TaxaBlock) (st : List (PyTree × Nat)) :
    ∀ cs : List PyTree, (∀ c ∈ cs, plookup c st = some (subtreeMask tb c)) →
    ∀ acc : Nat,
      cs.foldl (fun m c => m ||| (plookup c st).getD 0) acc = subtreeMaskList tb acc cs := by
  intro cs
  induction cs with
  | nil =>
    intro _ acc
    rw [subtreeMaskList]
    rfl
  | cons c cs' ih =>
    intro h acc
    rw [List.foldl_cons, subtreeMaskList, h c (List.mem_cons_self c cs')]
    exact ih (fun c' h' => h c' (List.mem_cons_of_mem c h')) _

/-- C4.  On a tree all of whose referenced taxa are in the block, the
postorder encoding pass of encode_splits succeeds, and in the final
edge attribute state: the split mask attached to an edge whose head
node has children is the bitwise OR of all of its children's edge
split masks (all of which were resolved, postorder guaranteeing
children first); the split mask attached to a leaf edge is the
singleton bit of the leaf's taxon when it has one, and the zero mask
when it has none, raising no error. -/
theorem encode_splits_edge_masks (tb : TaxaBlock) (t : PyTree)
    (hT : ∀ x ∈ treeTaxa t, x ∈ tb) :
    ∃ st mp, encodeFold tb t = .ok (st, mp) ∧
      ∀ u ∈ postorderNodes t,
        (u.children ≠ [] →
          plookup u st =
            some (u.children.foldl (fun m c => m ||| (plookup c st).getD 0) 0) ∧
          ∀ c ∈ u.children, plookup c st ≠ none) ∧
        (u.children = [] →
          (∀ x : Nat, u.taxon = some x →
            ∃ b, taxon_bitmask tb x = some b ∧ plookup u st = some b) ∧
          (u.taxon = none → plookup u st = some 0)) := by
  obtain ⟨st, hfold, hinv, hpres⟩ := encodeFold_ok tb t hT
  refine ⟨st, _, hfold, ?_⟩
  intro u hu
  have hlu : plookup u st ≠ none := hpres u hu
  obtain ⟨v, hv⟩ : ∃ v, plookup u st = some v := by
    cases hl : plookup u st with
    | none => exact absurd hl hlu
    | some v => exact ⟨v, rfl⟩
  have hval : v = subtreeMask tb u := hinv (u, v) (plookup_mem hv)
  constructor
  · intro hne
    have hcs : ∀ c ∈ u.children, c ∈ postorderNodes t := fun c hc =>
      children_mem_postorderNodes (sizeOf t) t le_rfl u hu c hc
    have hlook : ∀ c ∈ u.children, plookup c st = some (subtreeMask tb c) := by
      intro c hc
      have hnc : plookup c st ≠ none := hpres c (hcs c hc)
      cases hl : plookup c st with
      | none => exact absurd hl hnc
      | some w =>
        have hw : w = subtreeMask tb c := hinv (c, w) (plookup_mem hl)
        rw [hw]
    refine ⟨?_, fun c hc => hpres c (hcs c hc)⟩
    rw [hv, hval, foldl_or_lookup tb st u.children hlook 0]
    obtain ⟨tx, ln, cs⟩ := u
    match cs, hne with
    | c :: cs', _ =>
      rw [subtreeMask]
      rfl
  · intro heq
    obtain ⟨tx, ln, cs⟩ := u
    have hcs0 : cs = [] := heq
    subst hcs0
    constructor
    · intro x hx
      have htx : tx = some x := hx
      subst htx
      have hxtb : x ∈ tb := hT x (taxon_mem_treeTaxa (sizeOf t) t le_rfl _ hu x rfl)
      obtain ⟨b, hb⟩ := taxon_bitmask_isSome hxtb
      refine ⟨b, hb, ?_⟩
      rw [hv, hval, subtreeMask, hb]
      rfl
    · intro htx
      have htx0 : tx = none := htx
      subst htx0
      rw [hv, hval, subtreeMask]

/-- A concrete two-leaf tree over the block with taxa 0 and 1, used by
witnesses: the root has two children, leaves labeled 0 and 1. -/
def exampleBlock : TaxaBlock := [0, 1]

def exampleLeaf0 : PyTree := PyTree.node (some 0) (some 2) []

def exampleLeaf1 : PyTree := PyTree.node (some 1) none []

def exampleTree : PyTree := PyTree.node none none [exampleLeaf0, exampleLeaf1]

theorem exampleTree_taxa : ∀ x ∈ treeTaxa exampleTree, x ∈ exampleBlock := by
  intro x hx
  rw [exampleTree, exampleLeaf0, exampleLeaf1] at hx
  rw [treeTaxa.eq_def] at hx
  simp only [treeTaxaList, treeTaxa] at hx
  simp at hx
  rcases hx with h | h <;> simp [exampleBlock, h]

/-- Witness for C4 on the concrete two-leaf tree. -/
theorem encode_splits_edge_masks_witness :
    (∀ x ∈ treeTaxa exampleTree, x ∈ exampleBlock) ∧
    (∃ st mp, encodeFold exampleBlock exampleTree = .ok (st, mp) ∧
      ∀ u ∈ postorderNodes exampleTree,
        (u.children ≠ [] →
          plookup u st =
            some (u.children.foldl (fun m c => m ||| (plookup c st).getD 0) 0) ∧
          ∀ c ∈ u.children, plookup c st ≠ none) ∧
        (u.children = [] →
          (∀ x : Nat, u.taxon = some x →
            ∃ b, taxon_bitmask exampleBlock x = some b ∧ plookup u st = some b) ∧
          (u.taxon = none → plookup u st = some 0))) :=
  ⟨exampleTree_taxa, encode_splits_edge_masks exampleBlock exampleTree exampleTree_taxa⟩

theorem mem_pkeys_pset {κ α : Type} [DecidableEq κ] {k k' : κ} (v : α)
    {l : List (κ × α)} (h : k ∈ pkeys l) : k ∈ pkeys (pset k' v l) := by
  by_cases hk : k' ∈ pkeys l
  · rw [pkeys_pset_mem v hk]
    exact h
  · rw [pkeys_pset_not_mem v hk]
    exact List.mem_append_left _ h

theorem self_mem_pkeys_pset {κ α : Type} [DecidableEq κ] (k : κ) (v : α)
    (l : List (κ × α)) : k ∈ pkeys (pset k v l) := by
  by_cases hk : k ∈ pkeys l
  · rw [pkeys_pset_mem v hk]
    exact hk
  · rw [pkeys_pset_not_mem v hk]
    exact List.mem_append_right _ (List.mem_singleton.mpr rfl)

theorem normalizeMap_sound (full : Nat) (mp : List (Nat × PyTree)) :
    ∀ p ∈ normalizeMap full mp, ∃ q ∈ mp, p.1 = normKey q.1 full ∧ p.2 = q.2 := by
  have hgen : ∀ l : List (Nat × PyTree), ∀ d : List (Nat × PyTree),
      ∀ p ∈ l.foldl (fun d p => pset (normKey p.1 full) p.2 d) d,
      (∃ q ∈ l, p.1 = normKey q.1 full ∧ p.2 = q.2) ∨ p ∈ d := by
    intro l
    induction l with
    | nil => exact fun d p hp => Or.inr hp
    | cons q l' ih =>
      intro d p hp
      rw [List.foldl_cons] at hp
      rcases ih (pset (normKey q.1 full) q.2 d) p hp with h | h
      · obtain ⟨q', hq', hkey⟩ := h
        exact Or.inl ⟨q', List.mem_cons_of_mem q hq', hkey⟩
      · rcases mem_pset h with h1 | h1
        · exact Or.inl ⟨q, List.mem_cons_self q l', by rw [h1]; exact ⟨rfl, rfl⟩⟩
        · exact Or.inr h1
  intro p hp
  rcases hgen mp [] p hp with h | h
  · exact h
  · cases h

theorem normalizeMap_covers (full : Nat) (mp : List (Nat × PyTree)) :
    ∀ q ∈ mp, normKey q.1 full ∈ pkeys (normalizeMap full mp) := by
  have hgen : ∀ l : List (Nat × PyTree), ∀ d : List (Nat × PyTree), ∀ k : Nat,
      (k ∈ pkeys d ∨ ∃ q ∈ l, k = normKey q.1 full) →
      k ∈ pkeys (l.foldl (fun d p => pset (normKey p.1 full) p.2 d) d) := by
    intro l
    induction l with
    | nil =>
      intro d k h
      rcases h with h | ⟨q, hq, _⟩
      · exact h
      · cases hq
    | cons q l' ih =>
      intro d k h
      rw [List.foldl_cons]
      apply ih
      rcases h with h | ⟨q', hq', hk⟩
      · exact Or.inl (mem_pkeys_pset _ h)
      · rcases List.mem_cons.mp hq' with h1 | h1
        · subst h1
          exact Or.inl (hk ▸ self_mem_pkeys_pset _ _ _)
        · exact Or.inr ⟨q', h1, hk⟩
  intro q hq
  exact hgen mp [] _ (Or.inr ⟨q, hq, rfl⟩)

/-- The branch condition of encode_splits, line 149 of splits.py. -/
def unrootedCond (u : Option Bool) (r : Bool) : Bool :=
  match u with
  | some b => !b
  | none => r

/-- C5.  With the postorder pass done, encode_splits stores the raw
split map as a plain dict exactly when the unrooted argument is
explicitly false, or is unset and the tree's rootedness flag is set;
in every other case it stores a NormalizedBitmaskDict built with the
universe's full taxon mask, whose every binding is a binding of the
raw map re-keyed by the canonical representative of the pair of the
mask and its complement, and which has a binding for every raw mask's
representative. -/
theorem encode_splits_storage (tb : TaxaBlock) (tree : Tree) (u : Option Bool)
    (st : List (PyTree × Nat)) (mp : List (Nat × PyTree))
    (h : encodeFold tb tree.seed_node = .ok (st, mp)) :
    ((u = some false ∨ (u = none ∧ tree.is_rooted = true)) →
      encode_splits tb tree u = .ok (.plain mp)) ∧
    (¬(u = some false ∨ (u = none ∧ tree.is_rooted = true)) →
      encode_splits tb tree u =
        .ok (.normalized (all_taxa_bitmask tb) (normalizeMap (all_taxa_bitmask tb) mp)) ∧
      (∀ p ∈ normalizeMap (all_taxa_bitmask tb) mp,
        ∃ q ∈ mp, p.1 = normKey q.1 (all_taxa_bitmask tb) ∧ p.2 = q.2) ∧
      (∀ q ∈ mp,
        normKey q.1 (all_taxa_bitmask tb) ∈ pkeys (normalizeMap (all_taxa_bitmask tb) mp))) := by
  have hite : encode_splits tb tree u =
      if unrootedCond u tree.is_rooted = true
      then .ok (.plain mp)
      else .ok (.normalized (all_taxa_bitmask tb) (normalizeMap (all_taxa_bitmask tb) mp)) := by
    rw [encode_splits.eq_def, h]
    rfl
  have hcond : (unrootedCond u tree.is_rooted = true) ↔
      (u = some false ∨ (u = none ∧ tree.is_rooted = true)) := by
    cases u with
    | none => simp [unrootedCond]
    | some b => cases b <;> simp [unrootedCond]
  constructor
  · intro hc
    rw [hite, if_pos (hcond.mpr hc)]
  · intro hc
    refine ⟨?_, normalizeMap_sound _ mp, normalizeMap_covers _ mp⟩
    rw [hite, if_neg (fun hx => hc (hcond.mp hx))]

/-- Witness for C5: the two-leaf example tree, marked unrooted, with
the unrooted argument passed as true, lands in the normalized branch;
the hypotheses are discharged on the concrete encoder output. -/
theorem encode_splits_storage_witness :
    ∃ st mp, encodeFold exampleBlock exampleTree = .ok (st, mp) ∧
      ((¬((some true : Option Bool) = some false ∨
          ((some true : Option Bool) = none ∧
            (Tree.mk exampleTree false).is_rooted = true))) →
        encode_splits exampleBlock (Tree.mk exampleTree false) (some true) =
          .ok (.normalized (all_taxa_bitmask exampleBlock)
            (normalizeMap (all_taxa_bitmask exampleBlock) mp))) := by
  obtain ⟨st, hfold, -, -⟩ := encodeFold_ok exampleBlock exampleTree exampleTree_taxa
  refine ⟨st, _, hfold, ?_⟩
  intro hc
  exact ((encode_splits_storage exampleBlock (Tree.mk exampleTree false) (some true)
    st _ hfold).2 hc).1

/-! ## SplitDistribution (dendropy.splits lines 158-252)

The mutable object becomes a record; each method becomes a function
from the old record (and arguments) to its result and the new record.
count_splits_on_tree returns the post-call state together with an
Except value: the state component is meaningful even when the call
raises, because the Python method mutates the instance before it can
fail. -/

mutual
/-- Modelled from the spec: node.distance_from_tip, the tip distance
of a node (longest root-to-tip path below it, a missing branch length
counting as zero). -/
def distance_from_tip : PyTree → ℚ
  | .node _ _ [] => 0
  | .node _ _ (c :: cs) => tipDistList 0 (c :: cs)
def tipDistList : ℚ → List PyTree → ℚ
  | acc, [] => acc
  | acc, c :: cs => tipDistList (max acc (distance_from_tip c + (c.length).getD 0)) cs
end

structure SplitDistribution where
  total_trees_counted : Nat
  taxa_block : TaxaBlock
  splits : List Nat
  split_counts : List (Nat × Nat)
  split_edge_lengths : List (Nat × List ℚ)
  split_node_ages : List (Nat × List ℚ)
  ignore_edge_lengths : Bool
  ignore_node_ages : Bool
  unrooted : Bool
  split_freqs : Option (List (Nat × ℚ))
  trees_counted_for_freqs : Nat

/-- SplitDistribution.__init__ with the given taxa block (the code's
None default constructs an empty block, which is the [] instance
here). -/
def SplitDistribution.init (tb : TaxaBlock) : SplitDistribution where
  total_trees_counted := 0
  taxa_block := tb
  splits := []
  split_counts := []
  split_edge_lengths := []
  split_node_ages := []
  ignore_edge_lengths := false
  ignore_node_ages := false
  unrooted := true
  split_freqs := none
  trees_counted_for_freqs := 0

/-- Modelled from the spec: tree.normalize_taxa, re-expressing the
tree's taxa against the shared universe and raising UnknownTaxon when
the tree references a taxon absent from it; in this label-based model
the re-expression itself is the identity. -/
def normalize_taxa (tree : Tree) (tb : TaxaBlock) : Except String Tree :=
  if ∀ x ∈ treeTaxa tree.seed_node, x ∈ tb then .ok tree else .error "UnknownTaxon"

/-- The frequency table calc_freqs builds: count over total for every
recorded split, the total replaced by one when no tree was counted. -/
def freqsOf (sd : SplitDistribution) : List (Nat × ℚ) :=
  sd.split_counts.map fun p =>
    (p.1, (p.2 : ℚ) /
      ((if sd.total_trees_counted = 0 then 1 else sd.total_trees_counted : Nat) : ℚ))

/-- SplitDistribution.calc_freqs: recompute the table, stamp it with
the current tree count, return it. -/
def calc_freqs (sd : SplitDistribution) : List (Nat × ℚ) × SplitDistribution :=
  (freqsOf sd,
    { sd with split_freqs := some (freqsOf sd),
              trees_counted_for_freqs := sd.total_trees_counted })

/-- SplitDistribution._get_split_frequencies, the getter behind the
split_frequencies property: recompute when no table is cached or the
stamp is stale, else return the cached table. -/
def split_frequencies (sd : SplitDistribution) : List (Nat × ℚ) × SplitDistribution :=
  if sd.split_freqs = none ∨ sd.trees_counted_for_freqs ≠ sd.total_trees_counted then
    calc_freqs sd
  else
    (sd.split_freqs.getD [], sd)

/-- One iteration of the aggregation loop of count_splits_on_tree for
one key of the tree's split_edges map.  The none branch of the edge
lookup cannot run (the keys iterated are the map's own keys; Python
would raise KeyError); the head node of an edge always exists in this
model, so the node-age guard of the code is always taken. -/
def countSplitStep (m : List (Nat × PyTree)) (sd : SplitDistribution)
    (split : Nat) : SplitDistribution :=
  match plookup split m with
  | none => sd
  | some edge =>
    let newCounts := pset split ((plookup split sd.split_counts).getD 0 + 1) sd.split_counts
    let sd1 :=
      if (plookup split sd.split_counts).isNone then
        { sd with splits := sd.splits ++ [split],
                  split_counts := pset split 1 sd.split_counts }
      else
        { sd with split_counts := newCounts }
    let lenVal : ℚ := match edge.length with | some l => l | none => 0
    let newLens := pset split ((plookup split sd1.split_edge_lengths).getD [] ++ [lenVal]) sd1.split_edge_lengths
    let sd2 :=
      if sd1.ignore_edge_lengths then sd1
      else
        { sd1 with split_edge_lengths := newLens }
    let newAges := pset split ((plookup split sd2.split_node_ages).getD [] ++ [distance_from_tip edge]) sd2.split_node_ages
    if sd2.ignore_node_ages then sd2
    else
      { sd2 with split_node_ages := newAges }

/-- The aggregation loop: iterate over the keys of the split map. -/
def countSplitLoop (m : List (Nat × PyTree)) (sd : SplitDistribution) :
    SplitDistribution :=
  (pkeys m).foldl (countSplitStep m) sd

/-- SplitDistribution.count_splits_on_tree.  The tree count is
incremented first, exactly as in the source, so a tree that fails
taxon normalization or encoding still leaves the incremented count
behind. -/
def count_splits_on_tree (sd : SplitDistribution) (tree : Tree) :
    SplitDistribution × Except String Unit :=
  let sd1 := { sd with total_trees_counted := sd.total_trees_counted + 1 }
  match normalize_taxa tree sd1.taxa_block with
  | .error e => (sd1, .error e)
  | .ok tree2 =>
    match encode_splits sd1.taxa_block tree2 (some sd1.unrooted) with
    | .error e => (sd1, .error e)
    | .ok se => (countSplitLoop se.entries sd1, .ok ())

theorem count_splits_unknown_aux (sd : SplitDistribution) (tree : Tree)
    (h : ¬ ∀ x ∈ treeTaxa tree.seed_node, x ∈ sd.taxa_block) :
    count_splits_on_tree sd tree =
      ({ sd with total_trees_counted := sd.total_trees_counted + 1 },
        .error "UnknownTaxon") := by
  have hn : normalize_taxa tree
      ({ sd with total_trees_counted := sd.total_trees_counted + 1 }
        : SplitDistribution).taxa_block = .error "UnknownTaxon" := by
    rw [normalize_taxa, if_neg h]
  simp only [count_splits_on_tree]
  rw [hn]

/-- The one-leaf tree carrying taxon 0, presented to a distribution
whose taxon universe is empty. -/
def cexDistribution : SplitDistribution := SplitDistribution.init []

def cexTree : Tree := Tree.mk (PyTree.node (some 0) none []) false

theorem cexTree_taxa_not_subset :
    ¬ ∀ x ∈ treeTaxa cexTree.seed_node, x ∈ cexDistribution.taxa_block := by
  intro hall
  have ht : treeTaxa (PyTree.node (some 0) none []) = [0] := by
    rw [treeTaxa.eq_def]
    show [0] ++ treeTaxaList [] = [0]
    rw [treeTaxaList.eq_def]
    rfl
  have h0 : (0 : Nat) ∈ treeTaxa cexTree.seed_node := by
    show (0 : Nat) ∈ treeTaxa (PyTree.node (some 0) none [])
    rw [ht]
    simp
  have := hall 0 h0
  simp [cexDistribution, SplitDistribution.init] at this

/-- C1 counterexample to the claim as stated: presenting a tree with
an unknown taxon raises UnknownTaxon, but trees_counted does NOT stay
as it was: the source increments total_trees_counted before calling
normalize_taxa, so the count moves from 0 to 1 even though the call
fails. -/
theorem count_splits_claim_cex :
    (count_splits_on_tree cexDistribution cexTree).2 = .error "UnknownTaxon" ∧
    (count_splits_on_tree cexDistribution cexTree).1.total_trees_counted = 1 ∧
    cexDistribution.total_trees_counted = 0 ∧ (1 : Nat) ≠ 0 := by
  have h := count_splits_unknown_aux cexDistribution cexTree cexTree_taxa_not_subset
  rw [h]
  refine ⟨rfl, rfl, rfl, by decide⟩

/-- C1 (amended).  A tree referencing a taxon absent from the shared
universe makes count_splits_on_tree raise UnknownTaxon and leaves
split_counts, split_edge_lengths, split_node_ages and the splits list
exactly as they were; however trees_counted does not stay unchanged:
it is incremented by one before validation and the increment is
committed even though the call fails. -/
theorem count_splits_unknown_taxon (sd : SplitDistribution) (tree : Tree)
    (h : ¬ ∀ x ∈ treeTaxa tree.seed_node, x ∈ sd.taxa_block) :
    (count_splits_on_tree sd tree).2 = .error "UnknownTaxon" ∧
    (count_splits_on_tree sd tree).1.splits = sd.splits ∧
    (count_splits_on_tree sd tree).1.split_counts = sd.split_counts ∧
    (count_splits_on_tree sd tree).1.split_edge_lengths = sd.split_edge_lengths ∧
    (count_splits_on_tree sd tree).1.split_node_ages = sd.split_node_ages ∧
    (count_splits_on_tree sd tree).1.split_freqs = sd.split_freqs ∧
    (count_splits_on_tree sd tree).1.total_trees_counted =
      sd.total_trees_counted + 1 := by
  rw [count_splits_unknown_aux sd tree h]
  exact ⟨rfl, rfl, rfl, rfl, rfl, rfl, rfl⟩

/-- Witness for C1 (amended) at the concrete empty-universe
distribution and one-leaf tree. -/
theorem count_splits_unknown_taxon_witness :
    (count_splits_on_tree cexDistribution cexTree).2 = .error "UnknownTaxon" ∧
    (count_splits_on_tree cexDistribution cexTree).1.splits = cexDistribution.splits ∧
    (count_splits_on_tree cexDistribution cexTree).1.split_counts =
      cexDistribution.split_counts ∧
    (count_splits_on_tree cexDistribution cexTree).1.split_edge_lengths =
      cexDistribution.split_edge_lengths ∧
    (count_splits_on_tree cexDistribution cexTree).1.split_node_ages =
      cexDistribution.split_node_ages ∧
    (count_splits_on_tree cexDistribution cexTree).1.split_freqs =
      cexDistribution.split_freqs ∧
    (count_splits_on_tree cexDistribution cexTree).1.total_trees_counted =
      cexDistribution.total_trees_counted + 1 :=
  count_splits_unknown_taxon cexDistribution cexTree cexTree_taxa_not_subset

/-! ## Per-tree aggregation: each split of the map counted exactly once -/

theorem pkeys_nodup_foldl_pset {κ α β : Type} [DecidableEq κ]
    (key : β → κ) (val : β → α) :
    ∀ l : List β, ∀ d : List (κ × α), (pkeys d).Nodup →
      (pkeys (l.foldl (fun d b => pset (key b) (val b) d) d)).Nodup := by
  intro l
  induction l with
  | nil => exact fun d h => h
  | cons b l' ih =>
    intro d h
    rw [List.foldl_cons]
    exact ih _ (pkeys_nodup_pset _ _ _ h)

theorem normalizeMap_keys_nodup (full : Nat) (mp : List (Nat × PyTree)) :
    (pkeys (normalizeMap full mp)).Nodup := by
  have h := pkeys_nodup_foldl_pset (fun p : Nat × PyTree => normKey p.1 full)
    Prod.snd mp [] List.nodup_nil
  exact h

theorem specPset_foldl_keys_nodup (tb : TaxaBlock) (nodes : List PyTree) :
    (pkeys (nodes.foldl (specPset tb) [])).Nodup := by
  have h := pkeys_nodup_foldl_pset (subtreeMask tb) id nodes [] List.nodup_nil
  have he : nodes.foldl (fun d b => pset (subtreeMask tb b) (id b) d) [] =
      nodes.foldl (specPset tb) [] := by
    rfl
  rw [he] at h
  exact h

theorem normalize_taxa_ok_iff (tree : Tree) (tb : TaxaBlock) :
    normalize_taxa tree tb = .ok tree ↔ ∀ x ∈ treeTaxa tree.seed_node, x ∈ tb := by
  rw [normalize_taxa]
  by_cases h : ∀ x ∈ treeTaxa tree.seed_node, x ∈ tb
  · rw [if_pos h]
    exact iff_of_true rfl h
  · rw [if_neg h]
    exact iff_of_false (by simp) h

/-- Any successful encode_splits produced from the predicted raw map
carries keys without duplicates, in both storage forms. -/
theorem encode_splits_keys_nodup (tb : TaxaBlock) (tree : Tree) (u : Option Bool)
    (se : SplitEdges) (hT : ∀ x ∈ treeTaxa tree.seed_node, x ∈ tb)
    (henc : encode_splits tb tree u = .ok se) :
    (pkeys se.entries).Nodup := by
  obtain ⟨st, hfold, -, -⟩ := encodeFold_ok tb tree.seed_node hT
  have hite : encode_splits tb tree u =
      if unrootedCond u tree.is_rooted = true
      then .ok (.plain ((postorderNodes tree.seed_node).foldl (specPset tb) []))
      else .ok (.normalized (all_taxa_bitmask tb)
        (normalizeMap (all_taxa_bitmask tb)
          ((postorderNodes tree.seed_node).foldl (specPset tb) []))) := by
    rw [encode_splits.eq_def, hfold]
    rfl
  rw [hite] at henc
  by_cases hc : unrootedCond u tree.is_rooted = true
  · rw [if_pos hc] at henc
    have hse : se = .plain ((postorderNodes tree.seed_node).foldl (specPset tb) []) :=
      (Except.ok.injEq _ _).mp henc.symm
    rw [hse]
    exact specPset_foldl_keys_nodup tb _
  · rw [if_neg hc] at henc
    have hse : se = .normalized (all_taxa_bitmask tb)
        (normalizeMap (all_taxa_bitmask tb)
          ((postorderNodes tree.seed_node).foldl (specPset tb) [])) :=
      (Except.ok.injEq _ _).mp henc.symm
    rw [hse]
    exact normalizeMap_keys_nodup _ _

/-- encode_splits succeeds whenever the tree's taxa are all in the
block. -/
theorem encode_splits_ok (tb : TaxaBlock) (tree : Tree) (u : Option Bool)
    (hT : ∀ x ∈ treeTaxa tree.seed_node, x ∈ tb) :
    ∃ se, encode_splits tb tree u = .ok se := by
  obtain ⟨st, hfold, -, -⟩ := encodeFold_ok tb tree.seed_node hT
  have hite : encode_splits tb tree u =
      if unrootedCond u tree.is_rooted = true
      then .ok (.plain ((postorderNodes tree.seed_node).foldl (specPset tb) []))
      else .ok (.normalized (all_taxa_bitmask tb)
        (normalizeMap (all_taxa_bitmask tb)
          ((postorderNodes tree.seed_node).foldl (specPset tb) []))) := by
    rw [encode_splits.eq_def, hfold]
    rfl
  rw [hite]
  by_cases hc : unrootedCond u tree.is_rooted = true
  · rw [if_pos hc]
    exact ⟨_, rfl⟩
  · rw [if_neg hc]
    exact ⟨_, rfl⟩

theorem countSplitStep_fields (m : List (Nat × PyTree)) (sd : SplitDistribution)
    (k : Nat) :
    (countSplitStep m sd k).total_trees_counted = sd.total_trees_counted ∧
    (countSplitStep m sd k).taxa_block = sd.taxa_block ∧
    (countSplitStep m sd k).ignore_edge_lengths = sd.ignore_edge_lengths ∧
    (countSplitStep m sd k).ignore_node_ages = sd.ignore_node_ages ∧
    (countSplitStep m sd k).unrooted = sd.unrooted ∧
    (countSplitStep m sd k).split_freqs = sd.split_freqs ∧
    (countSplitStep m sd k).trees_counted_for_freqs = sd.trees_counted_for_freqs := by
  rw [countSplitStep]
  cases plookup k m with
  | none => exact ⟨rfl, rfl, rfl, rfl, rfl, rfl, rfl⟩
  | some e =>
    simp only []
    split_ifs <;> exact ⟨rfl, rfl, rfl, rfl, rfl, rfl, rfl⟩

theorem countSplitStep_frame (m : List (Nat × PyTree)) (sd : SplitDistribution)
    (k s : Nat) (hne : s ≠ k) :
    plookup s (countSplitStep m sd k).split_counts = plookup s sd.split_counts ∧
    plookup s (countSplitStep m sd k).split_edge_lengths =
      plookup s sd.split_edge_lengths ∧
    plookup s (countSplitStep m sd k).split_node_ages =
      plookup s sd.split_node_ages := by
  rw [countSplitStep]
  cases plookup k m with
  | none => exact ⟨rfl, rfl, rfl⟩
  | some e =>
    simp only []
    split_ifs <;>
      refine ⟨?_, ?_, ?_⟩ <;>
      simp [plookup_pset_ne _ _ hne]

theorem countSplitStep_hit (m : List (Nat × PyTree)) (sd : SplitDistribution)
    {k : Nat} {e : PyTree} (hm : plookup k m = some e) :
    plookup k (countSplitStep m sd k).split_counts =
      some ((plookup k sd.split_counts).getD 0 + 1) ∧
    (sd.ignore_edge_lengths = false →
      plookup k (countSplitStep m sd k).split_edge_lengths =
        some ((plookup k sd.split_edge_lengths).getD [] ++
          [match e.length with | some l => l | none => 0])) := by
  rw [countSplitStep, hm]
  simp only []
  constructor
  · split_ifs with h1 h2 h3 <;>
      simp_all [plookup_pset_self, Option.isNone_iff_eq_none]
  · intro hlen
    split_ifs with h1 h2 h3 <;>
      simp_all [plookup_pset_self, plookup_pset_ne, Option.isNone_iff_eq_none]

theorem countSplitFold_fields (m : List (Nat × PyTree)) :
    ∀ ks : List Nat, ∀ sd : SplitDistribution,
      (ks.foldl (countSplitStep m) sd).total_trees_counted = sd.total_trees_counted ∧
      (ks.foldl (countSplitStep m) sd).taxa_block = sd.taxa_block ∧
      (ks.foldl (countSplitStep m) sd).ignore_edge_lengths = sd.ignore_edge_lengths ∧
      (ks.foldl (countSplitStep m) sd).ignore_node_ages = sd.ignore_node_ages ∧
      (ks.foldl (countSplitStep m) sd).unrooted = sd.unrooted ∧
      (ks.foldl (countSplitStep m) sd).split_freqs = sd.split_freqs ∧
      (ks.foldl (countSplitStep m) sd).trees_counted_for_freqs =
        sd.trees_counted_for_freqs := by
  intro ks
  induction ks with
  | nil => exact fun sd => ⟨rfl, rfl, rfl, rfl, rfl, rfl, rfl⟩
  | cons k ks' ih =>
    intro sd
    rw [List.foldl_cons]
    have h1 := ih (countSplitStep m sd k)
    have h2 := countSplitStep_fields m sd k
    exact ⟨h1.1.trans h2.1, h1.2.1.trans h2.2.1, h1.2.2.1.trans h2.2.2.1,
      h1.2.2.2.1.trans h2.2.2.2.1, h1.2.2.2.2.1.trans h2.2.2.2.2.1,
      h1.2.2.2.2.2.1.trans h2.2.2.2.2.2.1, h1.2.2.2.2.2.2.trans h2.2.2.2.2.2.2⟩

theorem countSplitFold_frame (m : List (Nat × PyTree)) :
    ∀ ks : List Nat, ∀ sd : SplitDistribution, ∀ s : Nat, ¬ s ∈ ks →
      plookup s (ks.foldl (countSplitStep m) sd).split_counts =
        plookup s sd.split_counts ∧
      plookup s (ks.foldl (countSplitStep m) sd).split_edge_lengths =
        plookup s sd.split_edge_lengths ∧
      plookup s (ks.foldl (countSplitStep m) sd).split_node_ages =
        plookup s sd.split_node_ages := by
  intro ks
  induction ks with
  | nil => exact fun sd s _ => ⟨rfl, rfl, rfl⟩
  | cons k ks' ih =>
    intro sd s hs
    have hne : s ≠ k := fun h => hs (h ▸ List.mem_cons_self k ks')
    have hs' : ¬ s ∈ ks' := fun h => hs (List.mem_cons_of_mem k h)
    rw [List.foldl_cons]
    have h1 := ih (countSplitStep m sd k) s hs'
    have h2 := countSplitStep_frame m sd k s hne
    exact ⟨h1.1.trans h2.1, h1.2.1.trans h2.2.1, h1.2.2.trans h2.2.2⟩

theorem countSplitFold_hit (m : List (Nat × PyTree)) :
    ∀ ks : List Nat, ks.Nodup → ∀ sd : SplitDistribution, ∀ s : Nat, ∀ e : PyTree,
      s ∈ ks → plookup s m = some e →
      plookup s (ks.foldl (countSplitStep m) sd).split_counts =
        some ((plookup s sd.split_counts).getD 0 + 1) ∧
      (sd.ignore_edge_lengths = false →
        plookup s (ks.foldl (countSplitStep m) sd).split_edge_lengths =
          some ((plookup s sd.split_edge_lengths).getD [] ++
            [match e.length with | some l => l | none => 0])) := by
  intro ks
  induction ks with
  | nil => exact fun _ sd s e hs _ => absurd hs (List.not_mem_nil s)
  | cons k ks' ih =>
    intro hnd sd s e hs hm
    rw [List.nodup_cons] at hnd
    rw [List.foldl_cons]
    by_cases heq : s = k
    · subst heq
      have hstep := countSplitStep_hit m sd hm
      have hframe := countSplitFold_frame m ks' (countSplitStep m sd s) s hnd.1
      refine ⟨hframe.1.trans hstep.1, fun hlen => ?_⟩
      exact hframe.2.1.trans (hstep.2 hlen)
    · have hs' : s ∈ ks' := by
        rcases List.mem_cons.mp hs with h | h
        · exact absurd h heq
        · exact h
      have hstepf := countSplitStep_frame m sd k s heq
      have hfields := countSplitStep_fields m sd k
      have := ih hnd.2 (countSplitStep m sd k) s e hs' hm
      refine ⟨?_, fun hlen => ?_⟩
      · rw [this.1, hstepf.1]
      · have hlen' : (countSplitStep m sd k).ignore_edge_lengths = false :=
          hfields.2.2.1.trans hlen
        rw [this.2 hlen', hstepf.2.1]

/-- The successful path of count_splits_on_tree, explicitly. -/
theorem count_splits_ok_eq (sd : SplitDistribution) (tree : Tree) (se : SplitEdges)
    (hnorm : normalize_taxa tree sd.taxa_block = .ok tree)
    (henc : encode_splits sd.taxa_block tree (some sd.unrooted) = .ok se) :
    count_splits_on_tree sd tree =
      (countSplitLoop se.entries
        { sd with total_trees_counted := sd.total_trees_counted + 1 }, .ok ()) := by
  have hnorm' : normalize_taxa tree
      ({ sd with total_trees_counted := sd.total_trees_counted + 1 }
        : SplitDistribution).taxa_block = .ok tree := hnorm
  have henc' : encode_splits
      ({ sd with total_trees_counted := sd.total_trees_counted + 1 }
        : SplitDistribution).taxa_block tree
      (some ({ sd with total_trees_counted := sd.total_trees_counted + 1 }
        : SplitDistribution).unrooted) = .ok se := henc
  simp only [count_splits_on_tree, hnorm', henc]

/-- C6.  On a successful count_splits_on_tree call, every split key
of the tree's edge-to-split map has its occurrence count incremented
by exactly one (the map's keys carry no duplicates, so one key is
processed once even when several edges carried the same mask), and,
unless ignore_edge_lengths is set, exactly one branch-length sample
is appended to that split's sequence: the matching edge's length, or
zero when the edge carries none. -/
theorem count_splits_on_tree_spec (sd : SplitDistribution) (tree : Tree)
    (se : SplitEdges)
    (hnorm : normalize_taxa tree sd.taxa_block = .ok tree)
    (henc : encode_splits sd.taxa_block tree (some sd.unrooted) = .ok se) :
    (count_splits_on_tree sd tree).2 = .ok () ∧
    ∀ s : Nat, ∀ e : PyTree, (s, e) ∈ se.entries →
      plookup s (count_splits_on_tree sd tree).1.split_counts =
        some ((plookup s sd.split_counts).getD 0 + 1) ∧
      (sd.ignore_edge_lengths = false →
        plookup s (count_splits_on_tree sd tree).1.split_edge_lengths =
          some ((plookup s sd.split_edge_lengths).getD [] ++
            [match e.length with | some l => l | none => 0])) := by
  have hT := (normalize_taxa_ok_iff tree sd.taxa_block).mp hnorm
  have hnd := encode_splits_keys_nodup sd.taxa_block tree (some sd.unrooted) se hT henc
  have heq := count_splits_ok_eq sd tree se hnorm henc
  rw [heq]
  refine ⟨rfl, ?_⟩
  intro s e hmem
  have hs : s ∈ pkeys se.entries := mem_pkeys_of_mem hmem
  have hsm : plookup s se.entries = some e := plookup_eq_of_mem_nodup hnd hmem
  have hhit := countSplitFold_hit se.entries (pkeys se.entries) hnd
    { sd with total_trees_counted := sd.total_trees_counted + 1 } s e hs hsm
  exact hhit

/-- Witness for C6: counting the two-leaf example tree into a fresh
distribution over the example block. -/
theorem count_splits_on_tree_spec_witness :
    ∃ se, encode_splits (SplitDistribution.init exampleBlock).taxa_block
        (Tree.mk exampleTree false)
        (some (SplitDistribution.init exampleBlock).unrooted) = .ok se ∧
      ((count_splits_on_tree (SplitDistribution.init exampleBlock)
          (Tree.mk exampleTree false)).2 = .ok () ∧
        ∀ s : Nat, ∀ e : PyTree, (s, e) ∈ se.entries →
          plookup s (count_splits_on_tree (SplitDistribution.init exampleBlock)
            (Tree.mk exampleTree false)).1.split_counts =
            some ((plookup s (SplitDistribution.init exampleBlock).split_counts).getD 0
              + 1) ∧
          ((SplitDistribution.init exampleBlock).ignore_edge_lengths = false →
            plookup s (count_splits_on_tree (SplitDistribution.init exampleBlock)
              (Tree.mk exampleTree false)).1.split_edge_lengths =
              some ((plookup s
                (SplitDistribution.init exampleBlock).split_edge_lengths).getD [] ++
                [match e.length with | some l => l | none => 0]))) := by
  have hnorm : normalize_taxa (Tree.mk exampleTree false)
      (SplitDistribution.init exampleBlock).taxa_block = .ok (Tree.mk exampleTree false) :=
    (normalize_taxa_ok_iff _ _).mpr exampleTree_taxa
  obtain ⟨se, hse⟩ := encode_splits_ok (SplitDistribution.init exampleBlock).taxa_block
    (Tree.mk exampleTree false) (some (SplitDistribution.init exampleBlock).unrooted)
    exampleTree_taxa
  exact ⟨se, hse, count_splits_on_tree_spec (SplitDistribution.init exampleBlock)
    (Tree.mk exampleTree false) se hnorm hse⟩

/-! ## Reachable distribution states and their invariants -/

theorem pset_not_mem_eq_append {κ α : Type} [DecidableEq κ] {k : κ} (v : α)
    {l : List (κ × α)} (h : ¬ k ∈ pkeys l) : pset k v l = l ++ [(k, v)] := by
  induction l with
  | nil => rfl
  | cons p t ih =>
    obtain ⟨k0, v0⟩ := p
    have h0 : k0 ≠ k := fun he => h (by simp [he])
    have ht : ¬ k ∈ pkeys t := fun hm => h (by simp; right; exact hm)
    rw [pset, if_neg h0, ih ht]
    rfl

theorem normalize_taxa_ok_elim {tree : Tree} {tb : TaxaBlock} {t2 : Tree}
    (h : normalize_taxa tree tb = .ok t2) :
    t2 = tree ∧ ∀ x ∈ treeTaxa tree.seed_node, x ∈ tb := by
  rw [normalize_taxa] at h
  by_cases hc : ∀ x ∈ treeTaxa tree.seed_node, x ∈ tb
  · rw [if_pos hc] at h
    exact ⟨((Except.ok.injEq _ _).mp h).symm, hc⟩
  · rw [if_neg hc] at h
    cases h

/-- How one loop iteration can shape the splits list and the count
map. -/
theorem countSplitStep_splits_counts (m : List (Nat × PyTree))
    (sd : SplitDistribution) (k : Nat) :
    ((countSplitStep m sd k).splits = sd.splits ∧
      (countSplitStep m sd k).split_counts = sd.split_counts) ∨
    ((plookup k sd.split_counts = none ∧
        (countSplitStep m sd k).splits = sd.splits ++ [k] ∧
        (countSplitStep m sd k).split_counts = pset k 1 sd.split_counts) ∨
      (plookup k sd.split_counts ≠ none ∧
        (countSplitStep m sd k).splits = sd.splits ∧
        (countSplitStep m sd k).split_counts =
          pset k ((plookup k sd.split_counts).getD 0 + 1) sd.split_counts)) := by
  rw [countSplitStep]
  cases plookup k m with
  | none => exact Or.inl ⟨rfl, rfl⟩
  | some e =>
    simp only []
    by_cases ha : (plookup k sd.split_counts).isNone = true
    · rw [if_pos ha]
      refine Or.inr (Or.inl ⟨Option.isNone_iff_eq_none.mp ha, ?_, ?_⟩) <;>
        (split_ifs <;> rfl)
    · rw [if_neg ha]
      have hne : plookup k sd.split_counts ≠ none := by
        intro h0
        exact ha (by rw [h0]; rfl)
      refine Or.inr (Or.inr ⟨hne, ?_, ?_⟩) <;> (split_ifs <;> rfl)

theorem countSplitStep_inv3 (m : List (Nat × PyTree)) (sd : SplitDistribution)
    (k : Nat) (h1 : sd.splits = pkeys sd.split_counts)
    (h2 : (pkeys sd.split_counts).Nodup)
    (h3 : ∀ p ∈ sd.split_counts, 1 ≤ p.2) :
    (countSplitStep m sd k).splits = pkeys (countSplitStep m sd k).split_counts ∧
    (pkeys (countSplitStep m sd k).split_counts).Nodup ∧
    (∀ p ∈ (countSplitStep m sd k).split_counts, 1 ≤ p.2) := by
  rcases countSplitStep_splits_counts m sd k with ⟨hs, hc⟩ | ⟨hn, hs, hc⟩ | ⟨hn, hs, hc⟩
  · rw [hs, hc]
    exact ⟨h1, h2, h3⟩
  · have hnm : ¬ k ∈ pkeys sd.split_counts := by
      rw [← plookup_isSome_iff_mem, hn]
      simp
    have happ : pset k 1 sd.split_counts = sd.split_counts ++ [(k, 1)] :=
      pset_not_mem_eq_append 1 hnm
    rw [hs, hc, happ]
    refine ⟨?_, ?_, ?_⟩
    · rw [h1, pkeys, pkeys, List.map_append]
      rfl
    · rw [pkeys, List.map_append]
      have : (pkeys sd.split_counts ++ [k]).Nodup := by
        simp [List.nodup_append, h2, hnm]
      exact this
    · intro p hp
      rcases List.mem_append.mp hp with h | h
      · exact h3 p h
      · have : p = (k, 1) := by simpa using h
        rw [this]
  · rw [hs, hc]
    refine ⟨?_, pkeys_nodup_pset _ _ _ h2, ?_⟩
    · have hmem : k ∈ pkeys sd.split_counts := by
        rw [← plookup_isSome_iff_mem]
        cases hl : plookup k sd.split_counts with
        | none => exact absurd hl hn
        | some c => rfl
      rw [h1, pkeys_pset_mem _ hmem]
    · intro p hp
      rcases mem_pset hp with h | h
      · rw [h]
        simp
      · exact h3 p h

theorem countSplitFold_inv3 (m : List (Nat × PyTree)) :
    ∀ ks : List Nat, ∀ sd : SplitDistribution,
      sd.splits = pkeys sd.split_counts →
      (pkeys sd.split_counts).Nodup →
      (∀ p ∈ sd.split_counts, 1 ≤ p.2) →
      (ks.foldl (countSplitStep m) sd).splits =
        pkeys (ks.foldl (countSplitStep m) sd).split_counts ∧
      (pkeys (ks.foldl (countSplitStep m) sd).split_counts).Nodup ∧
      (∀ p ∈ (ks.foldl (countSplitStep m) sd).split_counts, 1 ≤ p.2) := by
  intro ks
  induction ks with
  | nil => exact fun sd h1 h2 h3 => ⟨h1, h2, h3⟩
  | cons k ks' ih =>
    intro sd h1 h2 h3
    rw [List.foldl_cons]
    obtain ⟨g1, g2, g3⟩ := countSplitStep_inv3 m sd k h1 h2 h3
    exact ih (countSplitStep m sd k) g1 g2 g3

/-- The states a SplitDistribution can be in over its lifetime:
freshly initialized, after a count_splits_on_tree call (successful or
not), after a frequency computation or query, or after the caller
assigns one of the three public flags. -/
inductive Reachable : SplitDistribution → Prop where
  | init (tb : TaxaBlock) : Reachable (SplitDistribution.init tb)
  | count (sd : SplitDistribution) (tree : Tree) (h : Reachable sd) :
      Reachable (count_splits_on_tree sd tree).1
  | calc_freqs_step (sd : SplitDistribution) (h : Reachable sd) :
      Reachable (calc_freqs sd).2
  | query (sd : SplitDistribution) (h : Reachable sd) :
      Reachable (split_frequencies sd).2
  | set_ignore_edge_lengths (sd : SplitDistribution) (b : Bool) (h : Reachable sd) :
      Reachable { sd with ignore_edge_lengths := b }
  | set_ignore_node_ages (sd : SplitDistribution) (b : Bool) (h : Reachable sd) :
      Reachable { sd with ignore_node_ages := b }
  | set_unrooted (sd : SplitDistribution) (b : Bool) (h : Reachable sd) :
      Reachable { sd with unrooted := b }

/-- The state invariant: the splits list mirrors the count map's keys
in first-observation order, counts are positive, the cache stamp
never runs ahead of the tree count, and a cached table carrying the
current stamp is exactly the table a recomputation would produce. -/
def SDInv (sd : SplitDistribution) : Prop :=
  sd.splits = pkeys sd.split_counts ∧
  (pkeys sd.split_counts).Nodup ∧
  (∀ p ∈ sd.split_counts, 1 ≤ p.2) ∧
  sd.trees_counted_for_freqs ≤ sd.total_trees_counted ∧
  (∀ f, sd.split_freqs = some f →
    sd.trees_counted_for_freqs = sd.total_trees_counted → f = freqsOf sd)

theorem count_result_cases (sd : SplitDistribution) (tree : Tree) :
    (count_splits_on_tree sd tree).1 =
      { sd with total_trees_counted := sd.total_trees_counted + 1 } ∨
    ∃ se : SplitEdges,
      (count_splits_on_tree sd tree).1 =
        countSplitLoop se.entries
          { sd with total_trees_counted := sd.total_trees_counted + 1 } ∧
      (pkeys se.entries).Nodup := by
  cases hn : normalize_taxa tree sd.taxa_block with
  | error e =>
    have hn' : normalize_taxa tree
        ({ sd with total_trees_counted := sd.total_trees_counted + 1 }
          : SplitDistribution).taxa_block = .error e := hn
    left
    simp only [count_splits_on_tree, hn']
  | ok tree2 =>
    obtain ⟨ht2, hT⟩ := normalize_taxa_ok_elim hn
    subst ht2
    cases he : encode_splits sd.taxa_block tree2 (some sd.unrooted) with
    | error e =>
      have hn' : normalize_taxa tree2
          ({ sd with total_trees_counted := sd.total_trees_counted + 1 }
            : SplitDistribution).taxa_block = .ok tree2 := hn
      left
      simp only [count_splits_on_tree, hn', he]
    | ok se =>
      have hn' : normalize_taxa tree2
          ({ sd with total_trees_counted := sd.total_trees_counted + 1 }
            : SplitDistribution).taxa_block = .ok tree2 := hn
      right
      refine ⟨se, ?_, encode_splits_keys_nodup sd.taxa_block tree2
        (some sd.unrooted) se hT he⟩
      simp only [count_splits_on_tree, hn', he]

theorem SDInv_calc (sd : SplitDistribution) (h : SDInv sd) :
    SDInv (calc_freqs sd).2 := by
  obtain ⟨h1, h2, h3, _, _⟩ := h
  exact ⟨h1, h2, h3, le_rfl, fun f hf _ => (Option.some_inj.mp hf).symm⟩

theorem reachable_SDInv : ∀ sd : SplitDistribution, Reachable sd → SDInv sd := by
  intro sd h
  induction h with
  | init tb =>
    exact ⟨rfl, List.nodup_nil, fun p hp => absurd hp (List.not_mem_nil p),
      le_rfl, fun f hf => absurd hf (by simp [SplitDistribution.init])⟩
  | count sd tree hr ih =>
    obtain ⟨i1, i2, i3, i4, i5⟩ := ih
    rcases count_result_cases sd tree with heq | ⟨se, heq, hnd⟩
    · rw [heq]
      refine ⟨i1, i2, i3, ?_, ?_⟩
      · show sd.trees_counted_for_freqs ≤ sd.total_trees_counted + 1
        omega
      · intro f hf hstamp
        exact absurd
          (show sd.trees_counted_for_freqs = sd.total_trees_counted + 1 from hstamp)
          (by omega)
    · rw [heq]
      rw [countSplitLoop]
      have sd1 : SplitDistribution :=
        { sd with total_trees_counted := sd.total_trees_counted + 1 }
      obtain ⟨g1, g2, g3⟩ := countSplitFold_inv3 se.entries (pkeys se.entries)
        { sd with total_trees_counted := sd.total_trees_counted + 1 } i1 i2 i3
      have hfields := countSplitFold_fields se.entries (pkeys se.entries)
        { sd with total_trees_counted := sd.total_trees_counted + 1 }
      refine ⟨g1, g2, g3, ?_, ?_⟩
      · rw [hfields.2.2.2.2.2.2, hfields.1]
        show sd.trees_counted_for_freqs ≤ sd.total_trees_counted + 1
        omega
      · intro f hf hstamp
        rw [hfields.2.2.2.2.2.1] at hf
        rw [hfields.2.2.2.2.2.2, hfields.1] at hstamp
        have : sd.trees_counted_for_freqs = sd.total_trees_counted + 1 := hstamp
        omega
  | calc_freqs_step sd hr ih => exact SDInv_calc sd ih
  | query sd hr ih =>
    rw [split_frequencies]
    by_cases hc : sd.split_freqs = none ∨
        sd.trees_counted_for_freqs ≠ sd.total_trees_counted
    · rw [if_pos hc]
      exact SDInv_calc sd ih
    · rw [if_neg hc]
      exact ih
  | set_ignore_edge_lengths sd b hr ih =>
    obtain ⟨i1, i2, i3, i4, i5⟩ := ih
    exact ⟨i1, i2, i3, i4, i5⟩
  | set_ignore_node_ages sd b hr ih =>
    obtain ⟨i1, i2, i3, i4, i5⟩ := ih
    exact ⟨i1, i2, i3, i4, i5⟩
  | set_unrooted sd b hr ih =>
    obtain ⟨i1, i2, i3, i4, i5⟩ := ih
    exact ⟨i1, i2, i3, i4, i5⟩

/-- C10.  Starting from a freshly initialized distribution and after
any sequence of count_splits_on_tree calls (and any queries or flag
assignments), the splits field lists exactly the keys of the
split_counts mapping, each key once, in the order keys were first
inserted, and every stored count is at least one. -/
theorem splits_list_inv (sd : SplitDistribution) (h : Reachable sd) :
    sd.splits = pkeys sd.split_counts ∧ sd.splits.Nodup ∧
    ∀ p ∈ sd.split_counts, 1 ≤ p.2 := by
  obtain ⟨i1, i2, i3, -, -⟩ := reachable_SDInv sd h
  exact ⟨i1, i1 ▸ i2, i3⟩

/-- Witness for C10 at the state reached by counting the example tree
into a fresh distribution. -/
theorem splits_list_inv_witness :
    (count_splits_on_tree (SplitDistribution.init exampleBlock)
        (Tree.mk exampleTree false)).1.splits =
      pkeys (count_splits_on_tree (SplitDistribution.init exampleBlock)
        (Tree.mk exampleTree false)).1.split_counts ∧
    (count_splits_on_tree (SplitDistribution.init exampleBlock)
        (Tree.mk exampleTree false)).1.splits.Nodup ∧
    ∀ p ∈ (count_splits_on_tree (SplitDistribution.init exampleBlock)
        (Tree.mk exampleTree false)).1.split_counts, 1 ≤ p.2 :=
  splits_list_inv _
    (Reachable.count _ _ (Reachable.init exampleBlock))

theorem plookup_map_value {κ α β : Type} [DecidableEq κ] (g : α → β) (k : κ) :
    ∀ l : List (κ × α),
      plookup k (l.map fun p => (p.1, g p.2)) = (plookup k l).map g := by
  intro l
  induction l with
  | nil => rfl
  | cons p t ih =>
    obtain ⟨k0, v0⟩ := p
    by_cases h : k0 = k
    · simp [plookup, h]
    · simp [plookup, h, ih]

/-- C7.  In every reachable state, fresh or stale cache alike, the
table the split_frequencies getter returns coincides with a full
recomputation at that moment, and maps every observed split to its
occurrence count divided by the tree total (dividing by one when the
total is zero). -/
theorem split_frequencies_spec (sd : SplitDistribution) (h : Reachable sd) :
    (split_frequencies sd).1 = (calc_freqs sd).1 ∧
    ∀ s : Nat, plookup s (split_frequencies sd).1 =
      (plookup s sd.split_counts).map fun c : Nat =>
        (c : ℚ) /
          ((if sd.total_trees_counted = 0 then 1 else sd.total_trees_counted : Nat) : ℚ) := by
  have hmain : (split_frequencies sd).1 = (calc_freqs sd).1 := by
    rw [split_frequencies]
    by_cases hc : sd.split_freqs = none ∨
        sd.trees_counted_for_freqs ≠ sd.total_trees_counted
    · rw [if_pos hc]
    · rw [if_neg hc]
      push_neg at hc
      obtain ⟨hne, hstamp⟩ := hc
      obtain ⟨f, hf⟩ := Option.ne_none_iff_exists'.mp hne
      obtain ⟨-, -, -, -, i5⟩ := reachable_SDInv sd h
      have := i5 f hf hstamp
      rw [hf]
      show f = (calc_freqs sd).1
      rw [this]
      rfl
  refine ⟨hmain, ?_⟩
  intro s
  rw [hmain]
  show plookup s (freqsOf sd) = _
  rw [freqsOf]
  exact plookup_map_value
    (fun c : Nat => (c : ℚ) /
      ((if sd.total_trees_counted = 0 then 1 else sd.total_trees_counted : Nat) : ℚ))
    s sd.split_counts

/-- Witness for C7 at the state reached by one query after one
count. -/
theorem split_frequencies_spec_witness :
    (split_frequencies (split_frequencies (SplitDistribution.init exampleBlock)).2).1 =
      (calc_freqs (split_frequencies (SplitDistribution.init exampleBlock)).2).1 ∧
    ∀ s : Nat,
      plookup s (split_frequencies
          (split_frequencies (SplitDistribution.init exampleBlock)).2).1 =
        (plookup s (split_frequencies
          (SplitDistribution.init exampleBlock)).2.split_counts).map fun c : Nat =>
          (c : ℚ) /
            ((if (split_frequencies (SplitDistribution.init exampleBlock)).2.total_trees_counted = 0
              then 1
              else (split_frequencies
                (SplitDistribution.init exampleBlock)).2.total_trees_counted : Nat) : ℚ) :=
  split_frequencies_spec _
    (Reachable.query _ (Reachable.init exampleBlock))

end DendroPy
